import Mathlib

/-!
# Verification of the network-segmenter address/mask/network engine

A shallow embedding of the C++ sources of the `network-segmenter`
repository.  Addresses are modelled as big-endian lists of byte values
(`List Nat`, each entry intended to lie in `[0, 255]`); the arithmetic
operators of `IPAddress` are translated instruction-for-instruction,
including their use of C++ truncating integer division/modulo (`Int.tdiv`
/ `Int.tmod`) and the wrap-around conversion to `uint8_t` (`% 256`).
-/

namespace NetSeg

/-- Big-endian numeric value of a byte list (`IPAddress::_address`). -/
def bytesToNat (a : List Nat) : Nat :=
  a.foldl (fun acc b => acc * 256 + b) 0

/-- Little-endian numeric value; `bytesToNat a = valLE a.reverse`. -/
def valLE : List Nat → Nat
  | [] => 0
  | b :: rest => b + 256 * valLE rest

/-- All entries of a byte list are genuine bytes. -/
def allBytes (a : List Nat) : Prop := ∀ b ∈ a, b < 256

instance (a : List Nat) : Decidable (allBytes a) := by
  unfold allBytes; infer_instance

/-- `IPAddress::operator++` on the reversed (least-significant-first) list:
scan from the least significant octet; the first octet that is not 255 is
incremented and the scan stops.  Octets equal to 255 are left unchanged
(the loop body only touches the octet inside the `!= 255` branch). -/
def incLE : List Nat → List Nat
  | [] => []
  | b :: rest => if b ≠ 255 then (b + 1) :: rest else b :: incLE rest

/-- `IPAddress::operator++` (big-endian view). -/
def opInc (a : List Nat) : List Nat := (incLE a.reverse).reverse

/-- `IPAddress::operator--` on the reversed list: the first octet that is
not 0 is decremented and the scan stops; octets equal to 0 are left
unchanged. -/
def decLE : List Nat → List Nat
  | [] => []
  | b :: rest => if b ≠ 0 then (b - 1) :: rest else b :: decLE rest

/-- `IPAddress::operator--` (big-endian view). -/
def opDec (a : List Nat) : List Nat := (decLE a.reverse).reverse

/-- One step of `IPAddress::operator+=(int)` / `operator-=(int)`:
`int sum = (*it) + carry; (*it) = sum % 256; carry = sum / 256;` where
`%` and `/` are C++ truncating operations (`Int.tmod` / `Int.tdiv`) and
the assignment to `uint8_t` reduces modulo 256 (`Int.emod`). -/
def cByte (sum : Int) : Nat := (sum.tmod 256 % 256).toNat

/-- `IPAddress::operator+=(int)` on the reversed list.  The loop exits as
soon as the running carry is zero; a carry remaining past the most
significant octet is dropped. -/
def addIntLE (carry : Int) : List Nat → List Nat
  | [] => []
  | b :: rest =>
    if carry = 0 then b :: rest
    else cByte ((b : Int) + carry) :: addIntLE (((b : Int) + carry).tdiv 256) rest

/-- `IPAddress::operator+=(int)` (big-endian view). -/
def opAddInt (a : List Nat) (increment : Int) : List Nat :=
  (addIntLE increment a.reverse).reverse

/-- `IPAddress::operator-=(int)` on the reversed list:
`int difference = (*it) - borrow; (*it) = difference % 256;
borrow = difference / 256;` with C++ truncating `%` and `/`. -/
def subIntLE (borrow : Int) : List Nat → List Nat
  | [] => []
  | b :: rest =>
    if borrow = 0 then b :: rest
    else cByte ((b : Int) - borrow) :: subIntLE (((b : Int) - borrow).tdiv 256) rest

/-- `IPAddress::operator-=(int)` (big-endian view). -/
def opSubInt (a : List Nat) (decrement : Int) : List Nat :=
  (subIntLE decrement a.reverse).reverse

/-- `IPAddress::operator&=(const Mask&)`: the mask is consumed from its
first octet; once it is exhausted every remaining address octet is set
to 0. -/
def opAnd : List Nat → List Nat → List Nat
  | [], _ => []
  | _ :: as, [] => 0 :: opAnd as []
  | a :: as, m :: ms => (a &&& m) :: opAnd as ms

/-- `IPAddress::operator|=(const Mask&)`: once the mask is exhausted every
remaining address octet is set to 255. -/
def opOr : List Nat → List Nat → List Nat
  | [], _ => []
  | _ :: as, [] => 255 :: opOr as []
  | a :: as, m :: ms => (a ||| m) :: opOr as ms

/-- The digits inserted at the front of the address by
`IPv6Address::operator+=` once both the increment and the address are
exhausted but the carry is not yet zero (least significant first; the
fuel argument only bounds the recursion, `carry + 1` always suffices). -/
def carryDigitsLE : Nat → Nat → List Nat
  | 0, _ => []
  | _ + 1, 0 => []
  | fuel + 1, c + 1 => ((c + 1) % 256) :: carryDigitsLE fuel ((c + 1) / 256)

/-- All carry digits produced past the end of the address. -/
def carryExtend (c : Nat) : List Nat := carryDigitsLE (c + 1) c

/-- The iterations of `IPv6Address::operator+=` that still have increment
octets left (reversed lists): `sum = carry + increment octet
(+ address octet when present)`, produce `sum & 0xFF`, carry `sum >> 8`.
Returns the produced octets, the untouched remainder of the address and
the final carry. -/
def addPh1 : List Nat → List Nat → Nat → List Nat × List Nat × Nat
  | [], addr, c => ([], addr, c)
  | i :: is, [], c =>
      let r := addPh1 is [] ((c + i) / 256)
      (((c + i) % 256) :: r.1, r.2.1, r.2.2)
  | i :: is, a :: as, c =>
      let r := addPh1 is as ((c + i + a) / 256)
      (((c + i + a) % 256) :: r.1, r.2.1, r.2.2)

/-- The iterations of `IPv6Address::operator+=` after the increment is
exhausted: the loop keeps running while the carry is non-zero, consuming
address octets and finally extending past the most significant one. -/
def addPh2 : List Nat → Nat → List Nat
  | addr, 0 => addr
  | [], c + 1 => carryExtend (c + 1)
  | a :: as, c + 1 => ((c + 1 + a) % 256) :: addPh2 as ((c + 1 + a) / 256)

/-- `IPv6Address::operator+=(const vector<uint8_t>&)` on reversed
(least-significant-first) lists: the loop runs while the increment has
octets left or the carry is non-zero; octets produced after the target
address is exhausted are inserted at the front of the (big-endian)
address, i.e. appended here. -/
def addVecLE (inc addr : List Nat) (c : Nat) : List Nat :=
  (addPh1 inc addr c).1 ++ addPh2 (addPh1 inc addr c).2.1 (addPh1 inc addr c).2.2

/-- `IPv6Address::operator+=(const vector<uint8_t>&)` (big-endian view). -/
def opAddVec (a increment : List Nat) : List Nat :=
  (addVecLE increment.reverse a.reverse 0).reverse

/-- The loop body of `Mask::setMaskOctets` (the fuel argument only bounds
the recursion; `p` itself always suffices since every step consumes at
least 8 bits of the prefix). -/
def maskAux : Nat → Nat → List Nat
  | 0, _ => []
  | fuel + 1, p =>
    if p = 0 then []
    else if p ≥ 8 then 255 :: maskAux fuel (p - 8)
    else [(255 <<< (8 - p)) % 256]

/-- `Mask::setMaskOctets`: one octet of 255 per full 8-bit group of the
prefix, then a final octet `(uint8_t)(255 << (8 - remaining))`. -/
def setMaskOctets (p : Nat) : List Nat := maskAux p p

/-- `Mask::operator~`: every stored octet is bitwise inverted
(`uint8_t` complement, i.e. `255 - octet` for byte values). -/
def maskComplement (m : List Nat) : List Nat :=
  m.map (fun b => 255 - b % 256)

/-- `IPAddress::calculateCapacity` (defined once in `ip_address.h` and
inherited unchanged by both `IPv4Address` and `IPv6Address`):
65536 for any prefix length ≥ 32, otherwise `1 << (32 - prefixLength)`. -/
def calculateCapacity (prefixLength : Nat) : Nat :=
  if prefixLength ≥ 32 then 65536 else 1 <<< (32 - prefixLength)

/-- The recursion behind `ceil(log2 n)` (the fuel argument only bounds
the recursion; `n` itself always suffices). -/
def clog2Aux : Nat → Nat → Nat
  | 0, _ => 0
  | fuel + 1, n => if n ≤ 1 then 0 else clog2Aux fuel ((n + 1) / 2) + 1

/-- `ceil(log2 n)` as computed by the `segment` implementations.  For the
relevant range (`n ≤ 2^31`) the double-precision computation
`ceil(log2(numberOfSubnets))` is exact; `ceilLog2` equals `Nat.clog 2`
(`ceilLog2_eq_clog`). -/
def ceilLog2 (n : Nat) : Nat := clog2Aux n n

/-- An `IPv4Network`: the masked base address, the mask's prefix length,
the derived first/last usable addresses, the broadcast address, and the
owned child networks. -/
inductive IPv4Network : Type where
  | mk (ip : List Nat) (prefixLength : Nat) (firstIp lastIp broadcastIp : List Nat)
       (subnets : List IPv4Network) : IPv4Network

def IPv4Network.ip : IPv4Network → List Nat
  | .mk i _ _ _ _ _ => i

def IPv4Network.prefixLength : IPv4Network → Nat
  | .mk _ p _ _ _ _ => p

def IPv4Network.firstIp : IPv4Network → List Nat
  | .mk _ _ f _ _ _ => f

def IPv4Network.lastIp : IPv4Network → List Nat
  | .mk _ _ _ l _ _ => l

def IPv4Network.broadcastIp : IPv4Network → List Nat
  | .mk _ _ _ _ b _ => b

def IPv4Network.subnets : IPv4Network → List IPv4Network
  | .mk _ _ _ _ _ s => s

/-- An `IPv6Network`: as above but with no broadcast address. -/
inductive IPv6Network : Type where
  | mk (ip : List Nat) (prefixLength : Nat) (firstIp lastIp : List Nat)
       (subnets : List IPv6Network) : IPv6Network

def IPv6Network.ip : IPv6Network → List Nat
  | .mk i _ _ _ _ => i

def IPv6Network.prefixLength : IPv6Network → Nat
  | .mk _ p _ _ _ => p

def IPv6Network.firstIp : IPv6Network → List Nat
  | .mk _ _ f _ _ => f

def IPv6Network.lastIp : IPv6Network → List Nat
  | .mk _ _ _ l _ => l

def IPv6Network.subnets : IPv6Network → List IPv6Network
  | .mk _ _ _ _ s => s

/-- `IPv4Network::IPv4Network` via `Network::Network`: validate the prefix
length against `IPv4Address::isPrefixLengthCompatible` (1..32), derive
the mask, mask the address, compute `firstIp` by pre-increment and
`lastIp` by OR with the complemented mask; then clone `lastIp` into the
broadcast address and pre-decrement `lastIp`. -/
def constructIPv4 (a : List Nat) (prefixLength : Nat) : Except String IPv4Network :=
  if ¬(1 ≤ prefixLength ∧ prefixLength ≤ 32) then
    .error "Prefix length is not compatible with address type."
  else
    let mask := setMaskOctets prefixLength
    let base := opAnd a mask
    let firstIp := opInc base
    let orResult := opOr base (maskComplement mask)
    .ok (.mk base prefixLength firstIp (opDec orResult) orResult [])

/-- `IPv6Network::IPv6Network` via `Network::Network`: validate the prefix
length against `IPv6Address::isPrefixLengthCompatible` (1..128), mask the
address and derive first/last usable addresses. -/
def constructIPv6 (a : List Nat) (prefixLength : Nat) : Except String IPv6Network :=
  if ¬(1 ≤ prefixLength ∧ prefixLength ≤ 128) then
    .error "Prefix length is not compatible with address type."
  else
    let mask := setMaskOctets prefixLength
    let base := opAnd a mask
    .ok (.mk base prefixLength (opInc base) (opOr base (maskComplement mask)) [])

/-- The subnet-creating loop of `IPv4Network::segment`, iterating on the
remaining subnet count (so `i` runs from 0 to `n - 1`): the i-th child is
built from `base + increment * i` at the new prefix length; a child
constructor failure would propagate after the already-built children were
pushed. -/
def segmentLoopIPv4 (base : List Nat) (increment newPrefixLength : Nat) :
    Nat → Nat → List IPv4Network → List IPv4Network × Option String
  | 0, _, acc => (acc.reverse, none)
  | remaining + 1, i, acc =>
    match constructIPv4 (opAddInt base ((increment : Int) * i)) newPrefixLength with
    | .error e => (acc.reverse, some e)
    | .ok c => segmentLoopIPv4 base increment newPrefixLength remaining (i + 1) (c :: acc)

/-- `IPv4Network::segment`.  The three validation failures occur before
any state is modified; on success the previously computed subnets are
discarded and replaced.  Returns the network after the call together with
the raised error, if any. -/
def segmentIPv4 (net : IPv4Network) (numberOfSubnets : Nat) :
    IPv4Network × Option String :=
  if numberOfSubnets < 1 then
    (net, some "Number of subnets must be greater than 0.")
  else if numberOfSubnets > calculateCapacity net.prefixLength then
    (net, some "Number of subnets must be less than or equal to the capacity of the network.")
  else
    let newPrefixLength := net.prefixLength + ceilLog2 numberOfSubnets
    if newPrefixLength > 32 then
      (net, some "Number of subnets is too large for the network.")
    else
      let increment := 2 ^ (32 - newPrefixLength)
      match segmentLoopIPv4 net.ip increment newPrefixLength numberOfSubnets 0 [] with

      | (children, none) =>
          (.mk net.ip net.prefixLength net.firstIp net.lastIp net.broadcastIp children, none)
      | (children, some e) =>
          (.mk net.ip net.prefixLength net.firstIp net.lastIp net.broadcastIp children, some e)

/-- The increment byte vector of `IPv6Network::segment`: sixteen zero
octets with `increment[15 - bitsForSubnets / 8] = 1 << (bitsForSubnets % 8)`
(the constant `IPV6_NUM_HEXTETS` used in the source equals 8). -/
def ipv6IncrementVector (bitsForSubnets : Nat) : List Nat :=
  (List.range 16).map
    (fun k => if k = 15 - bitsForSubnets / 8 then 1 <<< (bitsForSubnets % 8) else 0)

/-- The subnet-creating loop of `IPv6Network::segment`, iterating on the
remaining subnet count: the i-th child's address is the base advanced by
adding the increment vector `i` times. -/
def segmentLoopIPv6 (base : List Nat) (incrementVec : List Nat) (newPrefixLength : Nat) :
    Nat → Nat → List IPv6Network → List IPv6Network × Option String
  | 0, _, acc => (acc.reverse, none)
  | remaining + 1, i, acc =>
    match constructIPv6 ((fun x => opAddVec x incrementVec)^[i] base) newPrefixLength with
    | .error e => (acc.reverse, some e)
    | .ok c => segmentLoopIPv6 base incrementVec newPrefixLength remaining (i + 1) (c :: acc)

/-- `IPv6Network::segment`: same validations as the IPv4 variant (the
capacity formula included), bound 128 on the new prefix length, and child
bases computed by repeated byte-vector addition. -/
def segmentIPv6 (net : IPv6Network) (numberOfSubnets : Nat) :
    IPv6Network × Option String :=
  if numberOfSubnets < 1 then
    (net, some "Number of subnets must be greater than 0.")
  else if numberOfSubnets > calculateCapacity net.prefixLength then
    (net, some "Number of subnets must be less than or equal to the capacity of the network.")
  else
    let newPrefixLength := net.prefixLength + ceilLog2 numberOfSubnets
    if newPrefixLength > 128 then
      (net, some "The new prefix length exceeds the maximum length of 128 bits.")
    else
      let bitsForSubnets := 128 - newPrefixLength
      let increment := ipv6IncrementVector bitsForSubnets
      match segmentLoopIPv6 net.ip increment newPrefixLength numberOfSubnets 0 [] with
      | (children, none) =>
          (.mk net.ip net.prefixLength net.firstIp net.lastIp children, none)
      | (children, some e) =>
          (.mk net.ip net.prefixLength net.firstIp net.lastIp children, some e)

/-! ## Textual parsing and rendering -/

/-- First index at which `d` occurs as a contiguous sublist of `s`
(`string::find`). -/
def findSub (d : List Char) : List Char → Option Nat
  | [] => if d.isPrefixOf ([] : List Char) then some 0 else none
  | c :: s' => if d.isPrefixOf (c :: s') then some 0 else (findSub d s').map (· + 1)

theorem findSub_le {d s : List Char} {i : Nat} (h : findSub d s = some i) :
    i + d.length ≤ s.length := by
  induction s generalizing i with
  | nil =>
    unfold findSub at h
    split at h
    · next hp =>
      simp only [Option.some.injEq] at h
      subst h
      simpa using (List.isPrefixOf_iff_prefix.mp hp).length_le
    · exact absurd h (by simp)
  | cons c s' ih =>
    unfold findSub at h
    split at h
    · next hp =>
      simp only [Option.some.injEq] at h
      subst h
      simpa using (List.isPrefixOf_iff_prefix.mp hp).length_le
    · next =>
      simp only [Option.map_eq_some'] at h
      obtain ⟨j, hj, rfl⟩ := h
      have := ih hj
      simp only [List.length_cons]
      omega

/-- The loop of `split` from `utils.cpp` (the fuel argument only bounds
the recursion; `s.length + 1` always suffices for a non-empty delimiter). -/
def splitListAux (d : List Char) : Nat → List Char → List (List Char)
  | 0, s => [s]
  | fuel + 1, s =>
    match findSub d s with
    | none => [s]
    | some i => s.take i :: splitListAux d fuel (s.drop (i + d.length))

/-- `split(s, delimiter)` from `utils.cpp`: repeatedly find the delimiter,
emit the text before it, continue after it; finally emit the remaining
text.  (The C++ code is never called with an empty delimiter; the guard
only serves totality.) -/
def splitList (s d : List Char) : List (List Char) :=
  if d = [] then [s] else splitListAux d (s.length + 1) s

/-- `::isdigit` on ASCII text. -/
def isDigitChar (c : Char) : Bool := 48 ≤ c.toNat && c.toNat ≤ 57

/-- `::isxdigit` on ASCII text. -/
def isHexDigitChar (c : Char) : Bool :=
  (48 ≤ c.toNat && c.toNat ≤ 57) || (97 ≤ c.toNat && c.toNat ≤ 102) ||
    (65 ≤ c.toNat && c.toNat ≤ 70)

/-- Value of a string of decimal digits (`stoi` on an all-digit string). -/
def digitsToNat (s : List Char) : Nat :=
  s.foldl (fun acc c => acc * 10 + (c.toNat - 48)) 0

/-- Value of one hexadecimal digit. -/
def hexDigitVal (c : Char) : Nat :=
  if c.toNat ≤ 57 then c.toNat - 48
  else if 97 ≤ c.toNat then c.toNat - 87
  else c.toNat - 55

/-- Value of a string of hexadecimal digits (`stoi(s, nullptr, 16)`). -/
def hexToNat (s : List Char) : Nat :=
  s.foldl (fun acc c => acc * 16 + hexDigitVal c) 0

/-- Decimal rendering of a non-negative value, fuelled (the fuel argument
only bounds the recursion; `n + 1` always suffices). -/
def decReprAux : Nat → Nat → List Char
  | 0, _ => []
  | fuel + 1, n =>
    if n < 10 then [Char.ofNat (48 + n)]
    else decReprAux fuel (n / 10) ++ [Char.ofNat (48 + n % 10)]

/-- Decimal rendering of a byte value (`stream << (int)octet`). -/
def decRepr (n : Nat) : List Char := decReprAux (n + 1) n

/-- One lowercase hexadecimal digit. -/
def hexDigitChar (d : Nat) : Char :=
  Char.ofNat (if d < 10 then 48 + d else 87 + d)

/-- Lowercase hexadecimal rendering, fuelled (`n + 1` always suffices). -/
def hexReprAux : Nat → Nat → List Char
  | 0, _ => []
  | fuel + 1, n =>
    if n < 16 then [hexDigitChar n]
    else hexReprAux fuel (n / 16) ++ [hexDigitChar (n % 16)]

/-- Lowercase hexadecimal rendering without leading zeros
(`stream << hex << (int)hextet`). -/
def hexRepr (n : Nat) : List Char := hexReprAux (n + 1) n

/-- The per-octet validation loop of `IPv4Address::setAddress`: each part
must be non-empty and all digits, convert with `stoi` (which raises
out-of-range past `INT_MAX`), and lie in `[0, 255]`. -/
def parse4Octets : List (List Char) → Except String (List Nat)
  | [] => .ok []
  | o :: rest =>
    if o.isEmpty || !o.all isDigitChar then
      .error "Invalid IPv4 address: parts must be non-empty and contain only digits."
    else
      let v := digitsToNat o
      if v > 2147483647 then .error "stoi: out of range"
      else if v > 255 then .error "Invalid IPv4 address: parts must be between 0 and 255."
      else do
        let vs ← parse4Octets rest
        return v :: vs

/-- `IPv4Address::setAddress`: split on `.`, require exactly 4 parts,
validate each octet. -/
def parse4 (s : List Char) : Except String (List Nat) :=
  let octets := splitList s ['.']
  if octets.length ≠ 4 then .error "Invalid IPv4 address: must have 4 parts."
  else parse4Octets octets

/-- The joining loop of the printers: each element, with the separator
after every element but the last. -/
def joinSep (sep : Char) : List (List Char) → List Char
  | [] => []
  | [x] => x
  | x :: y :: rest => x ++ sep :: joinSep sep (y :: rest)

/-- `IPv4Address::print`: octet values in decimal joined with `.`. -/
def render4 (a : List Nat) : List Char := joinSep '.' (a.map decRepr)

/-- `std::vector::resize(n, fill)`: truncate or pad with `fill`. -/
def resizeList (l : List (List Char)) (n : Nat) (fill : List Char) : List (List Char) :=
  if l.length ≥ n then l.take n else l ++ List.replicate (n - l.length) fill

/-- The per-hextet validation loop of `IPv6Address::setAddress`,
producing the two stored octets `(uint8_t)(v >> 8)` and
`(uint8_t)(v & 0xFF)` per group. -/
def parse6Hextets : List (List Char) → Except String (List Nat)
  | [] => .ok []
  | h :: rest =>
    if h.isEmpty || !h.all isHexDigitChar then
      .error "Invalid address format: hextets must be non-empty and contain only hexadecimal digits."
    else
      let v := hexToNat h
      if v > 2147483647 then .error "stoi: out of range"
      else if v > 65535 then
        .error "Invalid address format: hextets must be between 0x0000 and 0xFFFF."
      else do
        let vs ← parse6Hextets rest
        return v / 256 :: v % 256 :: vs

/-- The shared tail of `IPv6Address::setAddress`: the part-count check and
the validation loop. -/
def parse6Check (hextets : List (List Char)) : Except String (List Nat) :=
  if hextets.length ≠ 8 then .error "Invalid address format: must have 8 parts."
  else parse6Hextets hextets

/-- `IPv6Address::setAddress`.  When the text contains `::` it is split on
every `::` occurrence but only `parts[0]` and `parts[1]` are consulted;
the left groups are `resize`d to `8 - |right|` entries filled with `"0"`
and the right groups appended.  A right side of more than 8 groups makes
`8 - |right|` wrap around as `size_t`, so the `resize` call itself fails
(`length_error`). -/
def parse6 (s : List Char) : Except String (List Nat) :=
  if (findSub [':', ':'] s).isSome then
    let parts := splitList s [':', ':']
    let part0 := parts.getD 0 []
    let part1 := parts.getD 1 []
    let leftPart := if part0.isEmpty then [] else splitList part0 [':']
    let rightPart := if part1.isEmpty then [] else splitList part1 [':']
    if rightPart.length > 8 then .error "length_error"
    else parse6Check (resizeList leftPart (8 - rightPart.length) ['0'] ++ rightPart)
  else parse6Check (splitList s [':'])

/-- `IPv6Address::operator[]`: the 16-bit group `_address[2i] << 8 | _address[2i+1]`. -/
def hextetAt (a : List Nat) (i : Nat) : Nat :=
  a.getD (2 * i) 0 <<< 8 ||| a.getD (2 * i + 1) 0

/-- `IPv6Address::findLongestZeroSequence`: scan the 8 groups tracking the
current and the longest run of zero groups (ties keep the earlier run);
returns `(-1, -1)` when no zero group exists, else the start and end
indices of the run. -/
def findLongestZeroSequence (a : List Nat) : Int × Int :=
  let step := fun (st : Int × Int × Int × Int) (i : Nat) =>
    let (longestStart, longestLength, currentStart, currentLength) := st
    if hextetAt a i = 0 then
      let cs := if currentStart = -1 then (i : Int) else currentStart
      (longestStart, longestLength, cs, currentLength + 1)
    else if currentLength > longestLength then
      (currentStart, currentLength, -1, 0)
    else
      (longestStart, longestLength, -1, 0)
  let r := (List.range 8).foldl step (-1, 0, -1, 0)
  let final := if r.2.2.2 > r.2.1 then (r.2.2.1, r.2.2.2) else (r.1, r.2.1)
  if final.1 = -1 then (-1, -1) else (final.1, final.1 + final.2 - 1)

/-- `IPv6Address::print`: before group `start` of the longest zero run a
`:` is emitted; groups inside the run are skipped; every printed group
other than the last is followed by `:` unless its index equals the run's
end. -/
def print6 (a : List Nat) : List Char :=
  let se := findLongestZeroSequence a
  let start := se.1
  let stop := se.2
  (List.range 8).foldl
    (fun s (i : Nat) =>
      let s := if (i : Int) = start then s ++ [':'] else s
      if start ≤ (i : Int) ∧ (i : Int) ≤ stop then s
      else
        let s := s ++ hexRepr (hextetAt a i)
        if i < 7 ∧ (i : Int) ≠ stop then s ++ [':'] else s)
    []

/-! ## Basic value lemmas -/

theorem bytesToNat_go (l : List Nat) (acc : Nat) :
    l.foldl (fun acc b => acc * 256 + b) acc =
      acc * 256 ^ l.length + l.foldl (fun acc b => acc * 256 + b) 0 := by
  induction l generalizing acc with
  | nil => simp
  | cons b rest ih =>
    simp only [List.foldl_cons, List.length_cons]
    rw [ih (acc * 256 + b), ih (0 * 256 + b)]
    ring

theorem bytesToNat_cons (b : Nat) (rest : List Nat) :
    bytesToNat (b :: rest) = b * 256 ^ rest.length + bytesToNat rest := by
  unfold bytesToNat
  simpa using bytesToNat_go rest b

theorem bytesToNat_append_last (xs : List Nat) (b : Nat) :
    bytesToNat (xs ++ [b]) = bytesToNat xs * 256 + b := by
  unfold bytesToNat
  rw [List.foldl_append]
  rfl

theorem valLE_append (x y : List Nat) :
    valLE (x ++ y) = valLE x + 256 ^ x.length * valLE y := by
  induction x with
  | nil => simp [valLE]
  | cons b rest ih =>
    simp only [List.cons_append, valLE, List.length_cons, List.append_eq]
    rw [ih]
    ring

theorem valLE_reverse (a : List Nat) : valLE a.reverse = bytesToNat a := by
  induction a with
  | nil => rfl
  | cons b rest ih =>
    rw [List.reverse_cons, valLE_append, bytesToNat_cons, ih]
    simp [valLE]
    ring

theorem bytesToNat_lt (a : List Nat) (h : allBytes a) :
    bytesToNat a < 256 ^ a.length := by
  induction a with
  | nil => simp [bytesToNat]
  | cons b rest ih =>
    rw [bytesToNat_cons]
    have hb : b < 256 := h b (by simp)
    have hrest : bytesToNat rest < 256 ^ rest.length :=
      ih (fun x hx => h x (by simp [hx]))
    have : b * 256 ^ rest.length ≤ 255 * 256 ^ rest.length :=
      Nat.mul_le_mul_right _ (by omega)
    simp only [List.length_cons, pow_succ]
    nlinarith [pow_pos (show 0 < 256 by norm_num) rest.length]

theorem valLE_lt (l : List Nat) (h : allBytes l) : valLE l < 256 ^ l.length := by
  have := bytesToNat_lt l.reverse (fun b hb => h b (List.mem_reverse.mp hb))
  rw [← valLE_reverse] at this
  simpa using this

theorem bytesToNat_eq_zero {a : List Nat} (h : bytesToNat a = 0) :
    a = List.replicate a.length 0 := by
  induction a with
  | nil => rfl
  | cons b rest ih =>
    rw [bytesToNat_cons] at h
    have hpow : 0 < 256 ^ rest.length := pow_pos (by norm_num) _
    have hb : b = 0 := by
      rcases Nat.add_eq_zero.mp h with ⟨h1, _⟩
      rcases Nat.mul_eq_zero.mp h1 with h' | h'
      · exact h'
      · omega
    have hrest : bytesToNat rest = 0 := by omega
    rw [List.length_cons, List.replicate_succ, hb]
    exact congrArg (0 :: ·) (ih hrest)

theorem bytesToNat_replicate_zero (k : Nat) :
    bytesToNat (List.replicate k 0) = 0 := by
  induction k with
  | zero => rfl
  | succ k ih => rw [List.replicate_succ, bytesToNat_cons, ih]; simp

theorem bytesToNat_replicate_255 (k : Nat) :
    bytesToNat (List.replicate k 255) = 256 ^ k - 1 := by
  induction k with
  | zero => rfl
  | succ k ih =>
    rw [List.replicate_succ, bytesToNat_cons, ih]
    have hpow : 0 < 256 ^ k := pow_pos (by norm_num) _
    simp only [List.length_replicate, pow_succ]
    omega

theorem bytesToNat_mod_two (xs : List Nat) (b : Nat) :
    bytesToNat (xs ++ [b]) % 2 = b % 2 := by
  rw [bytesToNat_append_last]
  omega

/-! ## Length and byte-range preservation -/

theorem incLE_length (l : List Nat) : (incLE l).length = l.length := by
  induction l with
  | nil => rfl
  | cons b rest ih =>
    by_cases hb : b = 255 <;> simp [incLE, hb, ih]

theorem opInc_length (a : List Nat) : (opInc a).length = a.length := by
  simp [opInc, incLE_length]

theorem decLE_length (l : List Nat) : (decLE l).length = l.length := by
  induction l with
  | nil => rfl
  | cons b rest ih =>
    by_cases hb : b = 0 <;> simp [decLE, hb, ih]

theorem opDec_length (a : List Nat) : (opDec a).length = a.length := by
  simp [opDec, decLE_length]

theorem addIntLE_length (c : Int) (l : List Nat) :
    (addIntLE c l).length = l.length := by
  induction l generalizing c with
  | nil => rfl
  | cons b rest ih =>
    by_cases hc : c = 0 <;> simp [addIntLE, hc, ih]

theorem opAddInt_length (a : List Nat) (k : Int) :
    (opAddInt a k).length = a.length := by
  simp [opAddInt, addIntLE_length]

theorem subIntLE_length (c : Int) (l : List Nat) :
    (subIntLE c l).length = l.length := by
  induction l generalizing c with
  | nil => rfl
  | cons b rest ih =>
    by_cases hc : c = 0 <;> simp [subIntLE, hc, ih]

theorem opSubInt_length (a : List Nat) (k : Int) :
    (opSubInt a k).length = a.length := by
  simp [opSubInt, subIntLE_length]

theorem opAnd_length (a : List Nat) : ∀ m : List Nat, (opAnd a m).length = a.length := by
  induction a with
  | nil => intro m; cases m <;> rfl
  | cons x as ih =>
    intro m
    cases m with
    | nil => simp [opAnd, ih]
    | cons y ms => simp [opAnd, ih]

theorem opOr_length (a : List Nat) : ∀ m : List Nat, (opOr a m).length = a.length := by
  induction a with
  | nil => intro m; cases m <;> rfl
  | cons x as ih =>
    intro m
    cases m with
    | nil => simp [opOr, ih]
    | cons y ms => simp [opOr, ih]

theorem cByte_lt (s : Int) : cByte s < 256 := by
  unfold cByte
  have h1 : 0 ≤ s.tmod 256 % 256 := Int.emod_nonneg _ (by norm_num)
  have h2 : s.tmod 256 % 256 < 256 := Int.emod_lt_of_pos _ (by norm_num)
  omega

theorem addIntLE_bytes (c : Int) (l : List Nat) (h : allBytes l) :
    allBytes (addIntLE c l) := by
  induction l generalizing c with
  | nil => intro b hb; simp [addIntLE] at hb
  | cons x rest ih =>
    intro b hb
    by_cases hc : c = 0
    · simp [addIntLE, hc] at hb
      rcases hb with rfl | hb
      · exact h b (by simp)
      · exact h b (by simp [hb])
    · simp [addIntLE, hc] at hb
      rcases hb with rfl | hb
      · exact cByte_lt _
      · exact ih _ (fun y hy => h y (by simp [hy])) b hb

theorem opAnd_bytes (a : List Nat) (ha : allBytes a) :
    ∀ m : List Nat, allBytes (opAnd a m) := by
  induction a with
  | nil => intro m b hb; cases m <;> simp [opAnd] at hb
  | cons x as ih =>
    intro m b hb
    have hx : x < 256 := ha x (by simp)
    have has : allBytes as := fun y hy => ha y (by simp [hy])
    cases m with
    | nil =>
      simp [opAnd] at hb
      rcases hb with rfl | hb
      · omega
      · exact ih has [] b hb
    | cons y ms =>
      simp [opAnd] at hb
      rcases hb with rfl | hb
      · exact lt_of_le_of_lt (Nat.and_le_left) hx
      · exact ih has ms b hb

theorem opOr_bytes (a : List Nat) (ha : allBytes a) :
    ∀ m : List Nat, allBytes m → allBytes (opOr a m) := by
  induction a with
  | nil => intro m _ b hb; cases m <;> simp [opOr] at hb
  | cons x as ih =>
    intro m hm b hb
    have hx : x < 256 := ha x (by simp)
    have has : allBytes as := fun y hy => ha y (by simp [hy])
    cases m with
    | nil =>
      simp [opOr] at hb
      rcases hb with rfl | hb
      · omega
      · exact ih has [] (by intro y hy; simp at hy) b hb
    | cons y ms =>
      simp [opOr] at hb
      rcases hb with rfl | hb
      · have hy : y < 256 := hm y (by simp)
        have : x ||| y < 2 ^ 8 := Nat.or_lt_two_pow (by omega) (by omega)
        omega
      · exact ih has ms (fun z hz => hm z (by simp [hz])) b hb

theorem opAnd_nil_right (a : List Nat) : opAnd a [] = List.replicate a.length 0 := by
  induction a with
  | nil => rfl
  | cons x as ih => simp [opAnd, ih, List.replicate_succ]

theorem opOr_nil_right (a : List Nat) : opOr a [] = List.replicate a.length 255 := by
  induction a with
  | nil => rfl
  | cons x as ih => simp [opOr, ih, List.replicate_succ]

/-! ## Increment / decrement characterisation -/

theorem opInc_append_last (xs : List Nat) (b : Nat) (hb : b ≠ 255) :
    opInc (xs ++ [b]) = xs ++ [b + 1] := by
  unfold opInc
  rw [List.reverse_append]
  simp [incLE, hb]

theorem opDec_append_last (xs : List Nat) (b : Nat) (hb : b ≠ 0) :
    opDec (xs ++ [b]) = xs ++ [b - 1] := by
  unfold opDec
  rw [List.reverse_append]
  simp [decLE, hb]

theorem opInc_val_of_even (a : List Nat) (hne : a ≠ [])
    (h2 : bytesToNat a % 2 = 0) : bytesToNat (opInc a) = bytesToNat a + 1 := by
  have hdecomp := List.dropLast_append_getLast hne
  set b := a.getLast hne with hb
  have hpar : b % 2 = 0 := by
    rw [← hdecomp, bytesToNat_mod_two] at h2
    exact h2
  have hb255 : b ≠ 255 := by omega
  calc bytesToNat (opInc a) = bytesToNat (opInc (a.dropLast ++ [b])) := by rw [hdecomp]
    _ = bytesToNat (a.dropLast ++ [b + 1]) := by rw [opInc_append_last _ _ hb255]
    _ = bytesToNat a.dropLast * 256 + (b + 1) := bytesToNat_append_last _ _
    _ = bytesToNat (a.dropLast ++ [b]) + 1 := by rw [bytesToNat_append_last]; omega
    _ = bytesToNat a + 1 := by rw [hdecomp]

theorem opDec_val_of_odd (a : List Nat) (hne : a ≠ [])
    (h2 : bytesToNat a % 2 = 1) : bytesToNat (opDec a) = bytesToNat a - 1 := by
  have hdecomp := List.dropLast_append_getLast hne
  set b := a.getLast hne with hb
  have hpar : b % 2 = 1 := by
    rw [← hdecomp, bytesToNat_mod_two] at h2
    exact h2
  have hb0 : b ≠ 0 := by omega
  calc bytesToNat (opDec a) = bytesToNat (opDec (a.dropLast ++ [b])) := by rw [hdecomp]
    _ = bytesToNat (a.dropLast ++ [b - 1]) := by rw [opDec_append_last _ _ hb0]
    _ = bytesToNat a.dropLast * 256 + (b - 1) := bytesToNat_append_last _ _
    _ = bytesToNat (a.dropLast ++ [b]) - 1 := by rw [bytesToNat_append_last]; omega
    _ = bytesToNat a - 1 := by rw [hdecomp]

/-! ## Correctness of integer addition (`operator+=`) -/

theorem mod_mul_decomp (a z m : Nat) (ha : a < 256) :
    (a + 256 * z) % (256 * m) = a + 256 * (z % m) := by
  rcases Nat.eq_zero_or_pos m with rfl | hm
  · simp
  · have hz := Nat.div_add_mod z m
    have hsplit : a + 256 * z = (a + 256 * (z % m)) + (256 * m) * (z / m) := by
      nlinarith [hz]
    rw [hsplit, Nat.add_mul_mod_self_left]
    have hlt : a + 256 * (z % m) < 256 * m := by
      have := Nat.mod_lt z hm
      nlinarith
    exact Nat.mod_eq_of_lt hlt

theorem cByte_nonneg_add (b : Nat) (c : Int) (hc : 0 ≤ c) :
    cByte ((b : Int) + c) = (b + c.toNat) % 256 := by
  unfold cByte
  have hbc : (b : Int) + c = ((b + c.toNat : Nat) : Int) := by
    push_cast
    omega
  rw [hbc, Int.tmod_eq_emod (by positivity) (by norm_num), Int.emod_emod_of_dvd _ dvd_rfl]
  omega

theorem tdiv_nonneg_add (b : Nat) (c : Int) (hc : 0 ≤ c) :
    ((b : Int) + c).tdiv 256 = (((b + c.toNat) / 256 : Nat) : Int) := by
  have hbc : (b : Int) + c = ((b + c.toNat : Nat) : Int) := by
    push_cast
    omega
  rw [hbc, Int.tdiv_eq_ediv (by positivity) (by norm_num)]
  omega

theorem addIntLE_val (l : List Nat) : ∀ c : Int, 0 ≤ c → allBytes l →
    valLE (addIntLE c l) = (valLE l + c.toNat) % 256 ^ l.length := by
  induction l with
  | nil =>
    intro c _ _
    simp [addIntLE, valLE, Nat.mod_one]
  | cons b rest ih =>
    intro c hc hbytes
    have hbb : b < 256 := hbytes b (by simp)
    have hrest : allBytes rest := fun y hy => hbytes y (by simp [hy])
    by_cases hc0 : c = 0
    · subst hc0
      have hlt : valLE (b :: rest) < 256 ^ (b :: rest).length :=
        valLE_lt _ hbytes
      simp only [addIntLE, if_pos rfl, Int.toNat_zero, Nat.add_zero]
      exact (Nat.mod_eq_of_lt hlt).symm
    · simp only [addIntLE, if_neg hc0]
      have hcarry : (0 : Int) ≤ ((b : Int) + c).tdiv 256 := by
        rw [tdiv_nonneg_add b c hc]
        positivity
      rw [valLE, ih _ hcarry hrest, cByte_nonneg_add b c hc, tdiv_nonneg_add b c hc]
      rw [Int.toNat_ofNat]
      set B := b + c.toNat with hB
      have hBsplit := Nat.div_add_mod B 256
      rw [valLE, List.length_cons, pow_succ]
      have hmod : B % 256 < 256 := Nat.mod_lt _ (by norm_num)
      rw [mul_comm (256 ^ rest.length) 256, ← mod_mul_decomp _ _ _ hmod]
      congr 1
      omega

theorem opAddInt_val (a : List Nat) (k : Int) (hk : 0 ≤ k) (hb : allBytes a) :
    bytesToNat (opAddInt a k) = (bytesToNat a + k.toNat) % 256 ^ a.length := by
  unfold opAddInt
  rw [← valLE_reverse, List.reverse_reverse]
  have hrb : allBytes a.reverse := fun y hy => hb y (List.mem_reverse.mp hy)
  rw [addIntLE_val a.reverse k hk hrb, valLE_reverse, List.length_reverse]

/-! ## The ceiling log2 helper -/

theorem clog2Aux_congr (f : Nat) : ∀ g n, n ≤ f → n ≤ g → clog2Aux f n = clog2Aux g n := by
  induction f with
  | zero =>
    intro g n hf _
    have : n = 0 := by omega
    subst this
    cases g <;> simp [clog2Aux]
  | succ f ih =>
    intro g n _ hg
    by_cases h1 : n ≤ 1
    · cases g with
      | zero =>
        have : n = 0 := by omega
        subst this
        simp [clog2Aux]
      | succ g => simp [clog2Aux, h1]
    · cases g with
      | zero => omega
      | succ g =>
        simp only [clog2Aux, if_neg h1]
        exact congrArg (· + 1) (ih g ((n + 1) / 2) (by omega) (by omega))

theorem ceilLog2_eq_clog (n : Nat) : ceilLog2 n = Nat.clog 2 n := by
  induction n using Nat.strong_induction_on with
  | _ n ih =>
    by_cases h1 : n ≤ 1
    · interval_cases n
      · rw [Nat.clog_zero_right]
        rfl
      · rw [Nat.clog_one_right]
        rfl
    · have hstep : ceilLog2 n = ceilLog2 ((n + 1) / 2) + 1 := by
        unfold ceilLog2
        obtain ⟨m, rfl⟩ : ∃ m, n = m + 1 := ⟨n - 1, by omega⟩
        simp only [clog2Aux, if_neg h1]
        exact congrArg (· + 1)
          (clog2Aux_congr m ((m + 1 + 1) / 2) ((m + 1 + 1) / 2) (by omega) (le_refl _))
      rw [hstep, ih ((n + 1) / 2) (by omega)]
      conv_rhs => rw [Nat.clog_of_two_le (by norm_num) (by omega)]
      norm_num

/-! ## Mask structure lemmas -/

theorem maskAux_zero (f : Nat) : maskAux f 0 = [] := by
  cases f <;> rfl

theorem maskAux_congr (f : Nat) : ∀ g p, p ≤ f → p ≤ g → maskAux f p = maskAux g p := by
  induction f with
  | zero =>
    intro g p hf _
    have : p = 0 := by omega
    subst this
    rw [maskAux_zero, maskAux_zero]
  | succ f ih =>
    intro g p _ hg
    rcases Nat.eq_zero_or_pos p with rfl | hp
    · rw [maskAux_zero, maskAux_zero]
    · cases g with
      | zero => omega
      | succ g =>
        simp only [maskAux]
        have hne : ¬ p = 0 := by omega
        rw [if_neg hne, if_neg hne]
        by_cases h8 : p ≥ 8
        · rw [if_pos h8, if_pos h8]
          exact congrArg (255 :: ·) (ih g (p - 8) (by omega) (by omega))
        · rw [if_neg h8, if_neg h8]

theorem setMaskOctets_ge8 (p : Nat) (h : 8 ≤ p) :
    setMaskOctets p = 255 :: setMaskOctets (p - 8) := by
  unfold setMaskOctets
  obtain ⟨q, rfl⟩ : ∃ q, p = q + 1 := ⟨p - 1, by omega⟩
  simp only [maskAux]
  rw [if_neg (by omega), if_pos h]
  exact congrArg (255 :: ·) (maskAux_congr q (q + 1 - 8) (q + 1 - 8) (by omega) (le_refl _))

theorem setMaskOctets_zero : setMaskOctets 0 = [] := rfl

set_option maxRecDepth 2000 in
theorem setMaskOctets_small : ∀ p, 1 ≤ p → p < 8 →
    setMaskOctets p = [256 - 2 ^ (8 - p)] := by decide

set_option maxRecDepth 2000 in
theorem maskComplement_small : ∀ p, 1 ≤ p → p < 8 →
    maskComplement (setMaskOctets p) = [2 ^ (8 - p) - 1] := by decide

theorem maskComplement_cons255 (m : List Nat) :
    maskComplement (255 :: m) = 0 :: maskComplement m := rfl

/-! ## Byte-level bit lemmas (exhaustive over byte values) -/

set_option maxRecDepth 4000 in
theorem byte_and_255 : ∀ b < 256, b &&& 255 = b := by decide

set_option maxRecDepth 8000 in
theorem byte_and_dvd : ∀ b < 256, ∀ s < 8, 2 ^ s ∣ b &&& (256 - 2 ^ s) := by decide

set_option maxRecDepth 8000 in
theorem byte_and_id : ∀ b < 256, ∀ s < 8, 2 ^ s ∣ b → b &&& (256 - 2 ^ s) = b := by decide

set_option maxRecDepth 8000 in
theorem byte_or_add : ∀ b < 256, ∀ s < 8, 2 ^ s ∣ b → b ||| (2 ^ s - 1) = b + 2 ^ s - 1 := by
  decide

theorem pow256_eq (k : Nat) : (256 : Nat) ^ k = 2 ^ (8 * k) := by
  rw [show (256 : Nat) = 2 ^ 8 by norm_num, ← pow_mul]

/-! ## Value semantics of masking -/

theorem opAnd_mask_dvd : ∀ (a : List Nat) (p : Nat), allBytes a → p ≤ 8 * a.length →
    2 ^ (8 * a.length - p) ∣ bytesToNat (opAnd a (setMaskOctets p)) := by
  intro a
  induction a with
  | nil =>
    intro p _ _
    exact dvd_zero _
  | cons b as ih =>
    intro p hbytes hp
    have hb : b < 256 := hbytes b (by simp)
    have has : allBytes as := fun y hy => hbytes y (by simp [hy])
    rcases Nat.lt_or_ge p 8 with h8 | h8
    · rcases Nat.eq_zero_or_pos p with rfl | hp1
      · rw [setMaskOctets_zero, opAnd_nil_right, bytesToNat_replicate_zero]
        exact dvd_zero _
      · rw [setMaskOctets_small p hp1 h8]
        show 2 ^ (8 * (b :: as).length - p) ∣
          bytesToNat ((b &&& (256 - 2 ^ (8 - p))) :: opAnd as [])
        rw [bytesToNat_cons, opAnd_nil_right, bytesToNat_replicate_zero, Nat.add_zero,
          List.length_replicate]
        have hdvd : 2 ^ (8 - p) ∣ b &&& (256 - 2 ^ (8 - p)) :=
          byte_and_dvd b hb (8 - p) (by omega)
        have hexp : 8 * (b :: as).length - p = (8 - p) + 8 * as.length := by
          simp only [List.length_cons]
          omega
        rw [hexp, pow_add, pow256_eq]
        exact mul_dvd_mul hdvd dvd_rfl
    · rw [setMaskOctets_ge8 p h8]
      show 2 ^ (8 * (b :: as).length - p) ∣
        bytesToNat ((b &&& 255) :: opAnd as (setMaskOctets (p - 8)))
      rw [byte_and_255 b hb, bytesToNat_cons, opAnd_length]
      have hexp : 8 * (b :: as).length - p = 8 * as.length - (p - 8) := by
        simp only [List.length_cons]
        omega
      have hle : 8 * (b :: as).length - p ≤ 8 * as.length := by
        simp only [List.length_cons]
        omega
      apply dvd_add
      · rw [pow256_eq]
        exact Dvd.dvd.mul_left (pow_dvd_pow 2 hle) b
      · rw [hexp]
        exact ih (p - 8) has (by simp only [List.length_cons] at hp; omega)

theorem opAnd_mask_id : ∀ (a : List Nat) (p : Nat), allBytes a → p ≤ 8 * a.length →
    2 ^ (8 * a.length - p) ∣ bytesToNat a → opAnd a (setMaskOctets p) = a := by
  intro a
  induction a with
  | nil =>
    intro p _ _ _
    cases h : setMaskOctets p <;> rfl
  | cons b as ih =>
    intro p hbytes hp hdvd
    have hb : b < 256 := hbytes b (by simp)
    have has : allBytes as := fun y hy => hbytes y (by simp [hy])
    have hlt : bytesToNat (b :: as) < 256 ^ (b :: as).length := bytesToNat_lt _ hbytes
    have haslt : bytesToNat as < 256 ^ as.length := bytesToNat_lt _ has
    rcases Nat.lt_or_ge p 8 with h8 | h8
    · rcases Nat.eq_zero_or_pos p with rfl | hp1
      · -- p = 0: the value must be 0, so every octet is 0
        have hd : (2 : Nat) ^ (8 * (b :: as).length) ∣ bytesToNat (b :: as) := by
          simpa using hdvd
        have hz : bytesToNat (b :: as) = 0 :=
          Nat.eq_zero_of_dvd_of_lt hd (by rw [← pow256_eq]; exact hlt)
        have := bytesToNat_eq_zero hz
        rw [setMaskOctets_zero, opAnd_nil_right, ← this]
      · -- 1 ≤ p < 8: the tail must be all zero and the head divisible
        have he8k : 2 ^ (8 * as.length) ∣ bytesToNat (b :: as) := by
          refine dvd_trans (pow_dvd_pow 2 ?_) hdvd
          simp only [List.length_cons]
          omega
        rw [bytesToNat_cons] at he8k
        have hdvd_head : 2 ^ (8 * as.length) ∣ b * 256 ^ as.length := by
          rw [pow256_eq]
          exact Dvd.dvd.mul_left dvd_rfl b
        have hdvd_as : 2 ^ (8 * as.length) ∣ bytesToNat as :=
          (Nat.dvd_add_right hdvd_head).mp he8k
        have hz : bytesToNat as = 0 :=
          Nat.eq_zero_of_dvd_of_lt hdvd_as (by rw [← pow256_eq]; exact haslt)
        have hasrep := bytesToNat_eq_zero hz
        have hbdvd : 2 ^ (8 - p) ∣ b := by
          rw [bytesToNat_cons, hz, Nat.add_zero, pow256_eq] at hdvd
          have hexp : 8 * (b :: as).length - p = (8 - p) + 8 * as.length := by
            simp only [List.length_cons]
            omega
          rw [hexp, pow_add] at hdvd
          exact (Nat.mul_dvd_mul_iff_right (pow_pos (show 0 < 2 by norm_num) _)).mp hdvd
        rw [setMaskOctets_small p hp1 h8]
        show (b &&& (256 - 2 ^ (8 - p))) :: opAnd as [] = b :: as
        rw [byte_and_id b hb (8 - p) (by omega) hbdvd, opAnd_nil_right, ← hasrep]
    · -- p ≥ 8
      rw [setMaskOctets_ge8 p h8]
      show (b &&& 255) :: opAnd as (setMaskOctets (p - 8)) = b :: as
      rw [byte_and_255 b hb]
      have hdvd_as : 2 ^ (8 * as.length - (p - 8)) ∣ bytesToNat as := by
        have hexp : 8 * (b :: as).length - p = 8 * as.length - (p - 8) := by
          simp only [List.length_cons]
          omega
        rw [bytesToNat_cons, hexp] at hdvd
        have hdvd_head : 2 ^ (8 * as.length - (p - 8)) ∣ b * 256 ^ as.length := by
          rw [pow256_eq]
          exact Dvd.dvd.mul_left (pow_dvd_pow 2 (by omega)) b
        exact (Nat.dvd_add_right hdvd_head).mp hdvd
      rw [ih (p - 8) has (by simp only [List.length_cons] at hp; omega) hdvd_as]

theorem or_val_arith (b S T : Nat) (hS : 1 ≤ S) (hT : 1 ≤ T) :
    (b + S - 1) * T + (T - 1) = b * T + S * T - 1 := by
  have h1 : 1 ≤ b + S := by omega
  have h3 : 1 ≤ b * T + S * T := by nlinarith
  zify [h1, hT, h3]
  ring

theorem opOr_comp_val : ∀ (a : List Nat) (p : Nat), allBytes a → p ≤ 8 * a.length →
    2 ^ (8 * a.length - p) ∣ bytesToNat a →
    bytesToNat (opOr a (maskComplement (setMaskOctets p))) =
      bytesToNat a + 2 ^ (8 * a.length - p) - 1 := by
  intro a
  induction a with
  | nil =>
    intro p _ hp _
    have : p = 0 := by simpa using hp
    subst this
    rfl
  | cons b as ih =>
    intro p hbytes hp hdvd
    have hb : b < 256 := hbytes b (by simp)
    have has : allBytes as := fun y hy => hbytes y (by simp [hy])
    have haslt : bytesToNat as < 256 ^ as.length := bytesToNat_lt _ has
    rcases Nat.lt_or_ge p 8 with h8 | h8
    · rcases Nat.eq_zero_or_pos p with rfl | hp1
      · -- p = 0: complement is empty, every octet saturates to 255
        have hd : (2 : Nat) ^ (8 * (b :: as).length) ∣ bytesToNat (b :: as) := by
          simpa using hdvd
        have hz : bytesToNat (b :: as) = 0 :=
          Nat.eq_zero_of_dvd_of_lt hd (by rw [← pow256_eq]; exact bytesToNat_lt _ hbytes)
        rw [setMaskOctets_zero]
        show bytesToNat (opOr (b :: as) []) = _
        rw [opOr_nil_right, bytesToNat_replicate_255, hz, Nat.sub_zero]
        simp [pow256_eq]
      · -- 1 ≤ p < 8
        have he8k : 2 ^ (8 * as.length) ∣ bytesToNat (b :: as) := by
          refine dvd_trans (pow_dvd_pow 2 ?_) hdvd
          simp only [List.length_cons]
          omega
        rw [bytesToNat_cons] at he8k
        have hdvd_head : 2 ^ (8 * as.length) ∣ b * 256 ^ as.length := by
          rw [pow256_eq]
          exact Dvd.dvd.mul_left dvd_rfl b
        have hdvd_as : 2 ^ (8 * as.length) ∣ bytesToNat as :=
          (Nat.dvd_add_right hdvd_head).mp he8k
        have hz : bytesToNat as = 0 :=
          Nat.eq_zero_of_dvd_of_lt hdvd_as (by rw [← pow256_eq]; exact haslt)
        have hbdvd : 2 ^ (8 - p) ∣ b := by
          rw [bytesToNat_cons, hz, Nat.add_zero, pow256_eq] at hdvd
          have hexp : 8 * (b :: as).length - p = (8 - p) + 8 * as.length := by
            simp only [List.length_cons]
            omega
          rw [hexp, pow_add] at hdvd
          exact (Nat.mul_dvd_mul_iff_right (pow_pos (show 0 < 2 by norm_num) _)).mp hdvd
        rw [maskComplement_small p hp1 h8]
        show bytesToNat ((b ||| (2 ^ (8 - p) - 1)) :: opOr as []) = _
        rw [byte_or_add b hb (8 - p) (by omega) hbdvd, bytesToNat_cons, opOr_nil_right,
          List.length_replicate, bytesToNat_replicate_255, bytesToNat_cons, hz, Nat.add_zero]
        have hexp : 8 * (b :: as).length - p = (8 - p) + 8 * as.length := by
          simp only [List.length_cons]
          omega
        simp only [hexp, pow_add, pow256_eq]
        exact or_val_arith b _ _ Nat.one_le_two_pow Nat.one_le_two_pow
    · -- p ≥ 8
      rw [setMaskOctets_ge8 p h8, maskComplement_cons255]
      show bytesToNat ((b ||| 0) :: opOr as (maskComplement (setMaskOctets (p - 8)))) = _
      have hdvd_as : 2 ^ (8 * as.length - (p - 8)) ∣ bytesToNat as := by
        have hexp : 8 * (b :: as).length - p = 8 * as.length - (p - 8) := by
          simp only [List.length_cons]
          omega
        rw [bytesToNat_cons, hexp] at hdvd
        have hdvd_head : 2 ^ (8 * as.length - (p - 8)) ∣ b * 256 ^ as.length := by
          rw [pow256_eq]
          exact Dvd.dvd.mul_left (pow_dvd_pow 2 (by omega)) b
        exact (Nat.dvd_add_right hdvd_head).mp hdvd
      rw [Nat.or_zero, bytesToNat_cons, opOr_length,
        ih (p - 8) has (by simp only [List.length_cons] at hp; omega) hdvd_as,
        bytesToNat_cons]
      have hexp : 8 * (b :: as).length - p = 8 * as.length - (p - 8) := by
        simp only [List.length_cons]
        omega
      rw [hexp]
      have h1 : 1 ≤ (2 : Nat) ^ (8 * as.length - (p - 8)) := Nat.one_le_two_pow
      omega

/-! ## Value semantics of the byte-vector addition -/

theorem carryDigitsLE_val : ∀ (f c : Nat), c < 256 ^ f → valLE (carryDigitsLE f c) = c := by
  intro f
  induction f with
  | zero =>
    intro c hc
    interval_cases c
    rfl
  | succ f ih =>
    intro c hc
    cases c with
    | zero => rfl
    | succ c =>
      show valLE (((c + 1) % 256) :: carryDigitsLE f ((c + 1) / 256)) = c + 1
      rw [valLE, ih ((c + 1) / 256) (by rw [pow_succ] at hc; omega)]
      omega

theorem carryExtend_val (c : Nat) : valLE (carryExtend c) = c := by
  unfold carryExtend
  apply carryDigitsLE_val
  calc c < 256 ^ c := by
        rcases Nat.eq_zero_or_pos c with rfl | hc
        · norm_num
        · exact Nat.lt_pow_self (by norm_num) c
    _ ≤ 256 ^ (c + 1) := Nat.pow_le_pow_right (by norm_num) (by omega)

theorem carryDigitsLE_bytes (f c : Nat) : allBytes (carryDigitsLE f c) := by
  induction f generalizing c with
  | zero => intro b hb; simp [carryDigitsLE] at hb
  | succ f ih =>
    cases c with
    | zero => intro b hb; simp [carryDigitsLE] at hb
    | succ c =>
      intro b hb
      simp only [carryDigitsLE, List.mem_cons] at hb
      rcases hb with rfl | hb
      · exact Nat.mod_lt _ (by norm_num)
      · exact ih _ b hb

theorem addPh2_val : ∀ (addr : List Nat) (c : Nat), valLE (addPh2 addr c) = valLE addr + c := by
  intro addr
  induction addr with
  | nil =>
    intro c
    cases c with
    | zero => rfl
    | succ c =>
      show valLE (carryExtend (c + 1)) = _
      rw [carryExtend_val]
      simp [valLE]
  | cons a as ih =>
    intro c
    cases c with
    | zero => rfl
    | succ c =>
      show valLE (((c + 1 + a) % 256) :: addPh2 as ((c + 1 + a) / 256)) = _
      rw [valLE, ih, valLE]
      have := Nat.div_add_mod (c + 1 + a) 256
      omega

theorem addPh2_length : ∀ (addr : List Nat) (c : Nat), valLE addr + c < 256 ^ addr.length →
    (addPh2 addr c).length = addr.length := by
  intro addr
  induction addr with
  | nil =>
    intro c hc
    cases c with
    | zero => rfl
    | succ c => simp [valLE] at hc
  | cons a as ih =>
    intro c hc
    cases c with
    | zero => rfl
    | succ c =>
      show (((c + 1 + a) % 256) :: addPh2 as ((c + 1 + a) / 256)).length = _
      rw [List.length_cons, ih]
      · rfl
      · rw [valLE, List.length_cons, pow_succ] at hc
        generalize (256 : Nat) ^ as.length = P at hc ⊢
        omega

theorem addPh2_bytes : ∀ (addr : List Nat) (c : Nat), allBytes addr →
    allBytes (addPh2 addr c) := by
  intro addr
  induction addr with
  | nil =>
    intro c h
    cases c with
    | zero => exact h
    | succ c => exact carryDigitsLE_bytes _ _
  | cons a as ih =>
    intro c h
    cases c with
    | zero => exact h
    | succ c =>
      intro b hb
      simp only [addPh2, List.mem_cons] at hb
      rcases hb with rfl | hb
      · exact Nat.mod_lt _ (by norm_num)
      · exact ih _ (fun y hy => h y (by simp [hy])) b hb

theorem ph1_arith (m q A PB i vis c : Nat)
    (hmq : 256 * q + m = c + i) (hval : A + PB = vis + q) :
    m + 256 * A + 256 * PB = i + 256 * vis + c := by omega

theorem addPh1_spec : ∀ (inc addr : List Nat) (c : Nat),
    valLE (addPh1 inc addr c).1 +
      256 ^ inc.length * (valLE (addPh1 inc addr c).2.1 + (addPh1 inc addr c).2.2) =
      valLE inc + valLE addr + c ∧
    (addPh1 inc addr c).1.length = inc.length ∧
    (addPh1 inc addr c).2.1 = addr.drop inc.length := by
  intro inc
  induction inc with
  | nil =>
    intro addr c
    refine ⟨?_, rfl, rfl⟩
    simp [addPh1, valLE]
  | cons i is ih =>
    intro addr c
    cases addr with
    | nil =>
      obtain ⟨hval, hlen, hrest⟩ := ih [] ((c + i) / 256)
      refine ⟨?_, by simp [addPh1, hlen], by simp [addPh1, hrest]⟩
      show ((c + i) % 256) + 256 * valLE (addPh1 is [] ((c + i) / 256)).1 +
        256 ^ (is.length + 1) *
          (valLE (addPh1 is [] ((c + i) / 256)).2.1 + (addPh1 is [] ((c + i) / 256)).2.2) =
        i + 256 * valLE is + valLE [] + c
      have hval2 : valLE (addPh1 is [] ((c + i) / 256)).1 +
          256 ^ is.length *
            (valLE (addPh1 is [] ((c + i) / 256)).2.1 + (addPh1 is [] ((c + i) / 256)).2.2) =
          valLE is + (c + i) / 256 := by
        rw [hval]
        simp [valLE]
      have hpow : (256 : Nat) ^ (is.length + 1) *
          (valLE (addPh1 is [] ((c + i) / 256)).2.1 + (addPh1 is [] ((c + i) / 256)).2.2) =
          256 * (256 ^ is.length *
            (valLE (addPh1 is [] ((c + i) / 256)).2.1 + (addPh1 is [] ((c + i) / 256)).2.2)) := by
        ring
      rw [hpow]
      have harith := ph1_arith ((c + i) % 256) ((c + i) / 256)
        (valLE (addPh1 is [] ((c + i) / 256)).1)
        (256 ^ is.length *
          (valLE (addPh1 is [] ((c + i) / 256)).2.1 + (addPh1 is [] ((c + i) / 256)).2.2))
        i (valLE is) c (Nat.div_add_mod (c + i) 256) hval2
      simpa [valLE] using harith
    | cons a as =>
      obtain ⟨hval, hlen, hrest⟩ := ih as ((c + i + a) / 256)
      refine ⟨?_, by simp [addPh1, hlen], by simp [addPh1, hrest]⟩
      show ((c + i + a) % 256) + 256 * valLE (addPh1 is as ((c + i + a) / 256)).1 +
        256 ^ (is.length + 1) *
          (valLE (addPh1 is as ((c + i + a) / 256)).2.1 + (addPh1 is as ((c + i + a) / 256)).2.2) =
        i + 256 * valLE is + (a + 256 * valLE as) + c
      have hval2 : valLE (addPh1 is as ((c + i + a) / 256)).1 +
          256 ^ is.length *
            (valLE (addPh1 is as ((c + i + a) / 256)).2.1 + (addPh1 is as ((c + i + a) / 256)).2.2) =
          (valLE is + valLE as) + (c + i + a) / 256 := by
        rw [hval]
      have hpow : (256 : Nat) ^ (is.length + 1) *
          (valLE (addPh1 is as ((c + i + a) / 256)).2.1 + (addPh1 is as ((c + i + a) / 256)).2.2) =
          256 * (256 ^ is.length *
            (valLE (addPh1 is as ((c + i + a) / 256)).2.1 + (addPh1 is as ((c + i + a) / 256)).2.2)) := by
        ring
      rw [hpow]
      have harith := ph1_arith ((c + i + a) % 256) ((c + i + a) / 256)
        (valLE (addPh1 is as ((c + i + a) / 256)).1)
        (256 ^ is.length *
          (valLE (addPh1 is as ((c + i + a) / 256)).2.1 + (addPh1 is as ((c + i + a) / 256)).2.2))
        (i + a) (valLE is + valLE as) c (by have := Nat.div_add_mod (c + i + a) 256; omega)
        hval2
      omega

theorem addPh1_bytes : ∀ (inc addr : List Nat) (c : Nat), allBytes (addPh1 inc addr c).1 := by
  intro inc
  induction inc with
  | nil => intro addr c b hb; simp [addPh1] at hb
  | cons i is ih =>
    intro addr c
    cases addr with
    | nil =>
      intro b hb
      simp only [addPh1, List.mem_cons] at hb
      rcases hb with rfl | hb
      · exact Nat.mod_lt _ (by norm_num)
      · exact ih [] _ b hb
    | cons a as =>
      intro b hb
      simp only [addPh1, List.mem_cons] at hb
      rcases hb with rfl | hb
      · exact Nat.mod_lt _ (by norm_num)
      · exact ih as _ b hb

theorem addVecLE_val (inc addr : List Nat) (c : Nat) :
    valLE (addVecLE inc addr c) = valLE inc + valLE addr + c := by
  obtain ⟨hval, hlen, _⟩ := addPh1_spec inc addr c
  unfold addVecLE
  rw [valLE_append, addPh2_val, hlen, hval]

theorem addVecLE_length (inc addr : List Nat) (c : Nat)
    (hlen : inc.length ≤ addr.length)
    (hbound : valLE inc + valLE addr + c < 256 ^ addr.length) :
    (addVecLE inc addr c).length = addr.length := by
  obtain ⟨hval, hlen1, hrest⟩ := addPh1_spec inc addr c
  unfold addVecLE
  rw [List.length_append, hlen1, addPh2_length]
  · rw [hrest, List.length_drop]
    omega
  · rw [hrest, List.length_drop]
    have hsplit : (256 : Nat) ^ addr.length =
        256 ^ inc.length * 256 ^ (addr.length - inc.length) := by
      rw [← pow_add]
      congr 1
      omega
    rw [← hval, hsplit] at hbound
    have := Nat.lt_of_mul_lt_mul_left
      (a := 256 ^ inc.length)
      (show 256 ^ inc.length * (valLE (addPh1 inc addr c).2.1 + (addPh1 inc addr c).2.2) <
        256 ^ inc.length * 256 ^ (addr.length - inc.length) by omega)
    rw [hrest] at this
    exact this

theorem addVecLE_bytes (inc addr : List Nat) (c : Nat) (h : allBytes addr) :
    allBytes (addVecLE inc addr c) := by
  obtain ⟨_, _, hrest⟩ := addPh1_spec inc addr c
  intro b hb
  unfold addVecLE at hb
  rcases List.mem_append.mp hb with hb | hb
  · exact addPh1_bytes inc addr c b hb
  · refine addPh2_bytes _ _ ?_ b hb
    rw [hrest]
    intro y hy
    exact h y (List.mem_of_mem_drop hy)

theorem opAddVec_val (a inc : List Nat) :
    bytesToNat (opAddVec a inc) = bytesToNat a + bytesToNat inc := by
  unfold opAddVec
  rw [← valLE_reverse, List.reverse_reverse, addVecLE_val, valLE_reverse, valLE_reverse]
  omega

theorem opAddVec_length (a inc : List Nat) (hlen : inc.length ≤ a.length)
    (hbound : bytesToNat a + bytesToNat inc < 256 ^ a.length) :
    (opAddVec a inc).length = a.length := by
  unfold opAddVec
  rw [List.length_reverse, addVecLE_length]
  · simp
  · simpa using hlen
  · rw [valLE_reverse, valLE_reverse, List.length_reverse]
    omega

theorem opAddVec_bytes (a inc : List Nat) (h : allBytes a) :
    allBytes (opAddVec a inc) := by
  intro b hb
  unfold opAddVec at hb
  refine addVecLE_bytes _ _ _ ?_ b (List.mem_reverse.mp hb)
  intro y hy
  exact h y (List.mem_reverse.mp hy)

/-! ## Constructor and segmentation characterisation -/

theorem constructIPv4_eq (a : List Nat) (p : Nat) (h1 : 1 ≤ p) (h2 : p ≤ 32) :
    constructIPv4 a p =
      .ok (.mk (opAnd a (setMaskOctets p)) p
        (opInc (opAnd a (setMaskOctets p)))
        (opDec (opOr (opAnd a (setMaskOctets p)) (maskComplement (setMaskOctets p))))
        (opOr (opAnd a (setMaskOctets p)) (maskComplement (setMaskOctets p))) []) := by
  unfold constructIPv4
  rw [if_neg (not_not_intro ⟨h1, h2⟩)]

theorem constructIPv6_eq (a : List Nat) (p : Nat) (h1 : 1 ≤ p) (h2 : p ≤ 128) :
    constructIPv6 a p =
      .ok (.mk (opAnd a (setMaskOctets p)) p
        (opInc (opAnd a (setMaskOctets p)))
        (opOr (opAnd a (setMaskOctets p)) (maskComplement (setMaskOctets p))) []) := by
  unfold constructIPv6
  rw [if_neg (not_not_intro ⟨h1, h2⟩)]

/-- The i-th child network created by `IPv4Network::segment`. -/
def ipv4Child (base : List Nat) (increment newPrefixLength i : Nat) : IPv4Network :=
  let addr := opAddInt base ((increment : Int) * i)
  let childBase := opAnd addr (setMaskOctets newPrefixLength)
  .mk childBase newPrefixLength (opInc childBase)
    (opDec (opOr childBase (maskComplement (setMaskOctets newPrefixLength))))
    (opOr childBase (maskComplement (setMaskOctets newPrefixLength))) []

/-- The i-th child network created by `IPv6Network::segment`. -/
def ipv6Child (base incrementVec : List Nat) (newPrefixLength i : Nat) : IPv6Network :=
  let addr := (fun x => opAddVec x incrementVec)^[i] base
  let childBase := opAnd addr (setMaskOctets newPrefixLength)
  .mk childBase newPrefixLength (opInc childBase)
    (opOr childBase (maskComplement (setMaskOctets newPrefixLength))) []

theorem segmentLoopIPv4_eq (base : List Nat) (inc newP : Nat) (h1 : 1 ≤ newP)
    (h2 : newP ≤ 32) : ∀ (remaining i : Nat) (acc : List IPv4Network),
    segmentLoopIPv4 base inc newP remaining i acc =
      (acc.reverse ++ (List.range' i remaining).map (ipv4Child base inc newP), none) := by
  intro remaining
  induction remaining with
  | zero =>
    intro i acc
    simp [segmentLoopIPv4]
  | succ r ih =>
    intro i acc
    have hc : constructIPv4 (opAddInt base ((inc : Int) * i)) newP =
        .ok (ipv4Child base inc newP i) := constructIPv4_eq _ _ h1 h2
    simp only [segmentLoopIPv4, hc]
    rw [ih (i + 1) (ipv4Child base inc newP i :: acc)]
    simp [List.range'_succ]

theorem segmentLoopIPv6_eq (base incVec : List Nat) (newP : Nat) (h1 : 1 ≤ newP)
    (h2 : newP ≤ 128) : ∀ (remaining i : Nat) (acc : List IPv6Network),
    segmentLoopIPv6 base incVec newP remaining i acc =
      (acc.reverse ++ (List.range' i remaining).map (ipv6Child base incVec newP), none) := by
  intro remaining
  induction remaining with
  | zero =>
    intro i acc
    simp [segmentLoopIPv6]
  | succ r ih =>
    intro i acc
    have hc : constructIPv6 ((fun x => opAddVec x incVec)^[i] base) newP =
        .ok (ipv6Child base incVec newP i) := constructIPv6_eq _ _ h1 h2
    simp only [segmentLoopIPv6, hc]
    rw [ih (i + 1) (ipv6Child base incVec newP i :: acc)]
    simp [List.range'_succ]

theorem segmentIPv4_ok (net : IPv4Network) (n : Nat) (hn : 1 ≤ n)
    (hcap : n ≤ calculateCapacity net.prefixLength) (hp1 : 1 ≤ net.prefixLength)
    (hp : net.prefixLength + ceilLog2 n ≤ 32) :
    segmentIPv4 net n =
      (.mk net.ip net.prefixLength net.firstIp net.lastIp net.broadcastIp
        ((List.range n).map
          (ipv4Child net.ip (2 ^ (32 - (net.prefixLength + ceilLog2 n)))
            (net.prefixLength + ceilLog2 n))), none) := by
  unfold segmentIPv4
  rw [if_neg (by omega), if_neg (by omega), if_neg (by omega)]
  simp only [segmentLoopIPv4_eq net.ip (2 ^ (32 - (net.prefixLength + ceilLog2 n)))
    (net.prefixLength + ceilLog2 n) (by omega) hp n 0 []]
  rw [List.range_eq_range']
  simp

theorem segmentIPv6_ok (net : IPv6Network) (n : Nat) (hn : 1 ≤ n)
    (hcap : n ≤ calculateCapacity net.prefixLength) (hp1 : 1 ≤ net.prefixLength)
    (hp : net.prefixLength + ceilLog2 n ≤ 128) :
    segmentIPv6 net n =
      (.mk net.ip net.prefixLength net.firstIp net.lastIp
        ((List.range n).map
          (ipv6Child net.ip (ipv6IncrementVector (128 - (net.prefixLength + ceilLog2 n)))
            (net.prefixLength + ceilLog2 n))), none) := by
  unfold segmentIPv6
  rw [if_neg (by omega), if_neg (by omega), if_neg (by omega)]
  simp only [segmentLoopIPv6_eq net.ip
    (ipv6IncrementVector (128 - (net.prefixLength + ceilLog2 n)))
    (net.prefixLength + ceilLog2 n) (by omega) hp n 0 []]
  rw [List.range_eq_range']
  simp

/-! ## Facts about the network constructor derivations -/

theorem construct_core_facts (a : List Nat) (p L : Nat) (hlen : a.length = L)
    (hbytes : allBytes a) (hp1 : 1 ≤ p) (hpL : p < 8 * L) :
    bytesToNat (opInc (opAnd a (setMaskOctets p))) =
      bytesToNat (opAnd a (setMaskOctets p)) + 1 ∧
    bytesToNat (opOr (opAnd a (setMaskOctets p)) (maskComplement (setMaskOctets p))) =
      bytesToNat (opAnd a (setMaskOctets p)) + 2 ^ (8 * L - p) - 1 ∧
    bytesToNat (opDec (opOr (opAnd a (setMaskOctets p)) (maskComplement (setMaskOctets p)))) =
      bytesToNat (opAnd a (setMaskOctets p)) + 2 ^ (8 * L - p) - 1 - 1 := by
  set base := opAnd a (setMaskOctets p) with hbase
  have hblen : base.length = L := by rw [hbase, opAnd_length, hlen]
  have hbb : allBytes base := opAnd_bytes a hbytes _
  have hL1 : 1 ≤ L := by omega
  have hbne : base ≠ [] := by
    intro hcon
    rw [hcon] at hblen
    simp at hblen
    omega
  have hdvd : 2 ^ (8 * L - p) ∣ bytesToNat base := by
    have := opAnd_mask_dvd a p hbytes (by omega)
    rwa [hlen] at this
  have he1 : 1 ≤ 8 * L - p := by omega
  have h2dvd : 2 ∣ bytesToNat base :=
    dvd_trans (dvd_pow_self 2 (by omega : 8 * L - p ≠ 0)) hdvd
  have hinc : bytesToNat (opInc base) = bytesToNat base + 1 := by
    apply opInc_val_of_even base hbne
    obtain ⟨x, hx⟩ := h2dvd
    omega
  have hor : bytesToNat (opOr base (maskComplement (setMaskOctets p))) =
      bytesToNat base + 2 ^ (8 * L - p) - 1 := by
    have := opOr_comp_val base p hbb (by omega) (by rwa [hblen])
    rwa [hblen] at this
  have hpow2 : 2 ≤ 2 ^ (8 * L - p) :=
    le_trans (by norm_num) (Nat.pow_le_pow_right (by norm_num) he1)
  have hodd : bytesToNat (opOr base (maskComplement (setMaskOctets p))) % 2 = 1 := by
    rw [hor]
    obtain ⟨x, hx⟩ := h2dvd
    obtain ⟨y, hy⟩ := dvd_pow_self 2 (by omega : 8 * L - p ≠ 0)
    omega
  have horne : opOr base (maskComplement (setMaskOctets p)) ≠ [] := by
    intro hcon
    have := opOr_length base (maskComplement (setMaskOctets p))
    rw [hcon] at this
    simp at this
    omega
  have hdec : bytesToNat (opDec (opOr base (maskComplement (setMaskOctets p)))) =
      bytesToNat (opOr base (maskComplement (setMaskOctets p))) - 1 :=
    opDec_val_of_odd _ horne hodd
  exact ⟨hinc, hor, by rw [hdec, hor]⟩

/-! ## Helpers for the segmentation claim -/

theorem opAddInt_bytes (a : List Nat) (k : Int) (h : allBytes a) :
    allBytes (opAddInt a k) := by
  intro b hb
  unfold opAddInt at hb
  exact addIntLE_bytes k a.reverse (fun y hy => h y (List.mem_reverse.mp hy)) b
    (List.mem_reverse.mp hb)

theorem dvd_le_sub {d v M : Nat} (hd : d ∣ v) (hM : d ∣ M) (hlt : v < M) : v ≤ M - d := by
  obtain ⟨q, rfl⟩ := hd
  obtain ⟨m, rfl⟩ := hM
  rcases Nat.eq_zero_or_pos d with rfl | hdpos
  · simp at hlt
  · have hqm : q < m := by
      by_contra hc
      push_neg at hc
      exact absurd (Nat.mul_le_mul_left d hc) (by omega)
    calc d * q ≤ d * (m - 1) := Nat.mul_le_mul_left d (by omega)
      _ = d * m - d * 1 := by rw [Nat.mul_sub]
      _ = d * m - d := by rw [Nat.mul_one]

theorem constructIPv4_ok_inv {a : List Nat} {p : Nat} {net : IPv4Network}
    (h : constructIPv4 a p = .ok net) :
    1 ≤ p ∧ p ≤ 32 ∧
      net = .mk (opAnd a (setMaskOctets p)) p
        (opInc (opAnd a (setMaskOctets p)))
        (opDec (opOr (opAnd a (setMaskOctets p)) (maskComplement (setMaskOctets p))))
        (opOr (opAnd a (setMaskOctets p)) (maskComplement (setMaskOctets p))) [] := by
  unfold constructIPv4 at h
  split at h
  · exact absurd h (by simp)
  · next hcond =>
    push_neg at hcond
    simp only [Except.ok.injEq] at h
    exact ⟨by omega, by omega, h.symm⟩

theorem constructIPv6_ok_inv {a : List Nat} {p : Nat} {net : IPv6Network}
    (h : constructIPv6 a p = .ok net) :
    1 ≤ p ∧ p ≤ 128 ∧
      net = .mk (opAnd a (setMaskOctets p)) p
        (opInc (opAnd a (setMaskOctets p)))
        (opOr (opAnd a (setMaskOctets p)) (maskComplement (setMaskOctets p))) [] := by
  unfold constructIPv6 at h
  split at h
  · exact absurd h (by simp)
  · next hcond =>
    push_neg at hcond
    simp only [Except.ok.injEq] at h
    exact ⟨by omega, by omega, h.symm⟩

set_option maxRecDepth 8000 in
theorem ipv6IncrementVector_facts : ∀ b < 128,
    (ipv6IncrementVector b).length = 16 ∧ allBytes (ipv6IncrementVector b) ∧
    bytesToNat (ipv6IncrementVector b) = 2 ^ b := by decide

theorem iterate_addVec_facts (base incVec : List Nat) (hbb : allBytes base)
    (hblen : base.length = 16) (hilen : incVec.length = 16) :
    ∀ i : Nat, bytesToNat base + i * bytesToNat incVec < 256 ^ 16 →
      bytesToNat ((fun x => opAddVec x incVec)^[i] base) =
        bytesToNat base + i * bytesToNat incVec ∧
      ((fun x => opAddVec x incVec)^[i] base).length = 16 ∧
      allBytes ((fun x => opAddVec x incVec)^[i] base) := by
  intro i
  induction i with
  | zero =>
    intro _
    refine ⟨by simp, by simpa using hblen, by simpa using hbb⟩
  | succ i ih =>
    intro hbound
    have hmono : bytesToNat base + i * bytesToNat incVec < 256 ^ 16 := by
      have : i * bytesToNat incVec ≤ (i + 1) * bytesToNat incVec :=
        Nat.mul_le_mul_right _ (by omega)
      omega
    obtain ⟨hval, hlen, hbytes⟩ := ih hmono
    rw [Function.iterate_succ_apply']
    have hval' : bytesToNat (opAddVec ((fun x => opAddVec x incVec)^[i] base) incVec) =
        bytesToNat base + (i + 1) * bytesToNat incVec := by
      rw [opAddVec_val, hval]
      ring
    refine ⟨hval', ?_, ?_⟩
    · rw [opAddVec_length _ _ (by omega) ?_, hlen]
      rw [hval, hlen]
      have : (i + 1) * bytesToNat incVec = i * bytesToNat incVec + bytesToNat incVec := by ring
      omega
    · exact opAddVec_bytes _ _ hbytes

theorem child_value_bound (w p cl vb i n : Nat) (hw : p + cl ≤ w)
    (hdvd : 2 ^ (w - p) ∣ vb) (hvb : vb < 2 ^ w) (hin : i < n) (hn : n ≤ 2 ^ cl) :
    vb + i * 2 ^ (w - (p + cl)) + 2 ^ (w - (p + cl)) ≤ 2 ^ w := by
  have hsplit : (2 : Nat) ^ (w - p) = 2 ^ cl * 2 ^ (w - (p + cl)) := by
    rw [← pow_add]
    congr 1
    omega
  have hbase_le : vb ≤ 2 ^ w - 2 ^ (w - p) :=
    dvd_le_sub hdvd (pow_dvd_pow 2 (by omega)) hvb
  have hY : i * 2 ^ (w - (p + cl)) + 2 ^ (w - (p + cl)) ≤ 2 ^ (w - p) := by
    rw [hsplit]
    calc i * 2 ^ (w - (p + cl)) + 2 ^ (w - (p + cl)) = (i + 1) * 2 ^ (w - (p + cl)) := by ring
      _ ≤ 2 ^ cl * 2 ^ (w - (p + cl)) := Nat.mul_le_mul_right _ (by omega)
  have hple : 2 ^ (w - p) ≤ 2 ^ w := Nat.pow_le_pow_right (by norm_num) (by omega)
  have hgen : ∀ Y, Y + 2 ^ (w - (p + cl)) ≤ 2 ^ (w - p) →
      vb + Y + 2 ^ (w - (p + cl)) ≤ 2 ^ w := by
    intro Y hYle
    omega
  exact hgen _ hY

/-- C1: on every network built by the constructor from a parsed-shape
address, a successful `segment(n)` with `n` in `[1, capacity]` produces
exactly `n` children, each with prefix length `p + ceil(log2 n)`, whose
base-address values are `parent base + i * 2^(width - newPrefixLength)`
for `i = 0 .. n-1` — strictly increasing, with consecutive bases a full
block apart, hence non-overlapping blocks. -/
theorem segment_produces_expected_children :
    (∀ (a : List Nat) (p n : Nat) (net net' : IPv4Network),
      a.length = 4 → allBytes a → constructIPv4 a p = .ok net →
      1 ≤ n → n ≤ calculateCapacity p → segmentIPv4 net n = (net', none) →
      net'.subnets.length = n ∧
      (∀ c ∈ net'.subnets, IPv4Network.prefixLength c = p + ceilLog2 n) ∧
      net'.subnets.map (fun c => bytesToNat (IPv4Network.ip c)) =
        (List.range n).map
          (fun i => bytesToNat net.ip + i * 2 ^ (32 - (p + ceilLog2 n))) ∧
      List.Pairwise (fun x y => x + 2 ^ (32 - (p + ceilLog2 n)) ≤ y)
        (net'.subnets.map (fun c => bytesToNat (IPv4Network.ip c)))) ∧
    (∀ (a : List Nat) (p n : Nat) (net net' : IPv6Network),
      a.length = 16 → allBytes a → constructIPv6 a p = .ok net →
      1 ≤ n → n ≤ calculateCapacity p → segmentIPv6 net n = (net', none) →
      net'.subnets.length = n ∧
      (∀ c ∈ net'.subnets, IPv6Network.prefixLength c = p + ceilLog2 n) ∧
      net'.subnets.map (fun c => bytesToNat (IPv6Network.ip c)) =
        (List.range n).map
          (fun i => bytesToNat net.ip + i * 2 ^ (128 - (p + ceilLog2 n))) ∧
      List.Pairwise (fun x y => x + 2 ^ (128 - (p + ceilLog2 n)) ≤ y)
        (net'.subnets.map (fun c => bytesToNat (IPv6Network.ip c)))) := by
  constructor
  · intro a p n net net' halen habytes hctor hn hcap hseg
    obtain ⟨hp1, hp32, hnet⟩ := constructIPv4_ok_inv hctor
    have hpl : net.prefixLength = p := by rw [hnet]; rfl
    have hip : net.ip = opAnd a (setMaskOctets p) := by rw [hnet]; rfl
    have hple : p + ceilLog2 n ≤ 32 := by
      by_contra hc
      push_neg at hc
      have hfail : segmentIPv4 net n =
          (net, some "Number of subnets is too large for the network.") := by
        simp only [segmentIPv4, hpl]
        rw [if_neg (by omega), if_neg (by omega), if_pos (by omega)]
      rw [hfail] at hseg
      simp at hseg
    have hok := segmentIPv4_ok net n hn (by rwa [hpl]) (by rw [hpl]; exact hp1)
      (by rw [hpl]; exact hple)
    rw [hok] at hseg
    have hnet' : net' = .mk net.ip net.prefixLength net.firstIp net.lastIp net.broadcastIp
        ((List.range n).map
          (ipv4Child net.ip (2 ^ (32 - (net.prefixLength + ceilLog2 n)))
            (net.prefixLength + ceilLog2 n))) := by
      have := congrArg Prod.fst hseg
      simpa using this.symm
    have hchildren : net'.subnets = (List.range n).map
        (ipv4Child net.ip (2 ^ (32 - (p + ceilLog2 n))) (p + ceilLog2 n)) := by
      rw [hnet', hpl]
      rfl
    have hbase_bytes : allBytes net.ip := by
      rw [hip]
      exact opAnd_bytes a habytes _
    have hbase_len : net.ip.length = 4 := by rw [hip, opAnd_length, halen]
    have hbase_lt : bytesToNat net.ip < 2 ^ 32 := by
      have := bytesToNat_lt net.ip hbase_bytes
      rw [hbase_len] at this
      calc bytesToNat net.ip < 256 ^ 4 := this
        _ = 2 ^ 32 := by norm_num
    have hdvd : 2 ^ (32 - p) ∣ bytesToNat net.ip := by
      rw [hip]
      have := opAnd_mask_dvd a p habytes (by omega)
      rwa [halen] at this
    have hn_le : n ≤ 2 ^ ceilLog2 n := by
      rw [ceilLog2_eq_clog]
      exact Nat.le_pow_clog (by norm_num) n
    have hchild_val : ∀ i, i < n →
        bytesToNat (IPv4Network.ip
          (ipv4Child net.ip (2 ^ (32 - (p + ceilLog2 n))) (p + ceilLog2 n) i)) =
        bytesToNat net.ip + i * 2 ^ (32 - (p + ceilLog2 n)) := by
      intro i hi
      have hbound := child_value_bound 32 p (ceilLog2 n) (bytesToNat net.ip) i n hple hdvd
        hbase_lt hi hn_le
      have hpos : 1 ≤ (2 : Nat) ^ (32 - (p + ceilLog2 n)) := Nat.one_le_two_pow
      have hcast : ((2 ^ (32 - (p + ceilLog2 n)) : Nat) : Int) * (i : Int) =
          ((2 ^ (32 - (p + ceilLog2 n)) * i : Nat) : Int) := by
        push_cast
        ring
      have haddr_val : bytesToNat
          (opAddInt net.ip (((2 ^ (32 - (p + ceilLog2 n)) : Nat) : Int) * (i : Int))) =
          bytesToNat net.ip + i * 2 ^ (32 - (p + ceilLog2 n)) := by
        rw [opAddInt_val _ _ (by positivity) hbase_bytes, hbase_len, hcast, Int.toNat_ofNat]
        have hco : (2 : Nat) ^ (32 - (p + ceilLog2 n)) * i =
            i * 2 ^ (32 - (p + ceilLog2 n)) := by ring
        have hlt : bytesToNat net.ip + 2 ^ (32 - (p + ceilLog2 n)) * i < 256 ^ 4 := by
          have h2 : (256 : Nat) ^ 4 = 2 ^ 32 := by norm_num
          omega
        rw [Nat.mod_eq_of_lt hlt]
        ring
      have haddr_bytes : allBytes
          (opAddInt net.ip (((2 ^ (32 - (p + ceilLog2 n)) : Nat) : Int) * (i : Int))) :=
        opAddInt_bytes _ _ hbase_bytes
      have haddr_len : (opAddInt net.ip
          (((2 ^ (32 - (p + ceilLog2 n)) : Nat) : Int) * (i : Int))).length = 4 := by
        rw [opAddInt_length, hbase_len]
      have hdvd_addr : 2 ^ (32 - (p + ceilLog2 n)) ∣ bytesToNat
          (opAddInt net.ip (((2 ^ (32 - (p + ceilLog2 n)) : Nat) : Int) * (i : Int))) := by
        rw [haddr_val]
        exact dvd_add (dvd_trans (pow_dvd_pow 2 (by omega)) hdvd)
          (Dvd.dvd.mul_left dvd_rfl i)
      show bytesToNat (opAnd
        (opAddInt net.ip (((2 ^ (32 - (p + ceilLog2 n)) : Nat) : Int) * (i : Int)))
        (setMaskOctets (p + ceilLog2 n))) = _
      rw [opAnd_mask_id _ (p + ceilLog2 n) haddr_bytes (by rw [haddr_len]; omega)
        (by rw [haddr_len]; simpa using hdvd_addr)]
      exact haddr_val
    refine ⟨?_, ?_, ?_, ?_⟩
    · rw [hchildren]
      simp
    · intro c hc
      rw [hchildren] at hc
      obtain ⟨i, _, rfl⟩ := List.mem_map.mp hc
      rfl
    · rw [hchildren, List.map_map]
      exact List.map_congr_left (fun i hi => hchild_val i (List.mem_range.mp hi))
    · have hmapped : net'.subnets.map (fun c => bytesToNat (IPv4Network.ip c)) =
          (List.range n).map
            (fun i => bytesToNat net.ip + i * 2 ^ (32 - (p + ceilLog2 n))) := by
        rw [hchildren, List.map_map]
        exact List.map_congr_left (fun i hi => hchild_val i (List.mem_range.mp hi))
      rw [hmapped]
      rw [List.pairwise_map]
      refine (List.pairwise_lt_range n).imp ?_
      intro i j hij
      have hstep : (i + 1) * 2 ^ (32 - (p + ceilLog2 n)) ≤
          j * 2 ^ (32 - (p + ceilLog2 n)) := Nat.mul_le_mul_right _ (by omega)
      have hexpand : (i + 1) * 2 ^ (32 - (p + ceilLog2 n)) =
          i * 2 ^ (32 - (p + ceilLog2 n)) + 2 ^ (32 - (p + ceilLog2 n)) := by ring
      omega
  · intro a p n net net' halen habytes hctor hn hcap hseg
    obtain ⟨hp1, hp128, hnet⟩ := constructIPv6_ok_inv hctor
    have hpl : net.prefixLength = p := by rw [hnet]; rfl
    have hip : net.ip = opAnd a (setMaskOctets p) := by rw [hnet]; rfl
    have hple : p + ceilLog2 n ≤ 128 := by
      by_contra hc
      push_neg at hc
      have hfail : segmentIPv6 net n =
          (net, some "The new prefix length exceeds the maximum length of 128 bits.") := by
        simp only [segmentIPv6, hpl]
        rw [if_neg (by omega), if_neg (by omega), if_pos (by omega)]
      rw [hfail] at hseg
      simp at hseg
    have hok := segmentIPv6_ok net n hn (by rwa [hpl]) (by rw [hpl]; exact hp1)
      (by rw [hpl]; exact hple)
    rw [hok] at hseg
    have hnet' : net' = .mk net.ip net.prefixLength net.firstIp net.lastIp
        ((List.range n).map
          (ipv6Child net.ip
            (ipv6IncrementVector (128 - (net.prefixLength + ceilLog2 n)))
            (net.prefixLength + ceilLog2 n))) := by
      have := congrArg Prod.fst hseg
      simpa using this.symm
    have hchildren : net'.subnets = (List.range n).map
        (ipv6Child net.ip (ipv6IncrementVector (128 - (p + ceilLog2 n)))
          (p + ceilLog2 n)) := by
      rw [hnet', hpl]
      rfl
    obtain ⟨hivlen, hivbytes, hivval⟩ :=
      ipv6IncrementVector_facts (128 - (p + ceilLog2 n)) (by omega)
    have hbase_bytes : allBytes net.ip := by
      rw [hip]
      exact opAnd_bytes a habytes _
    have hbase_len : net.ip.length = 16 := by rw [hip, opAnd_length, halen]
    have hbase_lt : bytesToNat net.ip < 2 ^ 128 := by
      have := bytesToNat_lt net.ip hbase_bytes
      rw [hbase_len] at this
      calc bytesToNat net.ip < 256 ^ 16 := this
        _ = 2 ^ 128 := by norm_num
    have hdvd : 2 ^ (128 - p) ∣ bytesToNat net.ip := by
      rw [hip]
      have := opAnd_mask_dvd a p habytes (by omega)
      rwa [halen] at this
    have hn_le : n ≤ 2 ^ ceilLog2 n := by
      rw [ceilLog2_eq_clog]
      exact Nat.le_pow_clog (by norm_num) n
    have hchild_val : ∀ i, i < n →
        bytesToNat (IPv6Network.ip
          (ipv6Child net.ip (ipv6IncrementVector (128 - (p + ceilLog2 n)))
            (p + ceilLog2 n) i)) =
        bytesToNat net.ip + i * 2 ^ (128 - (p + ceilLog2 n)) := by
      intro i hi
      have hbound := child_value_bound 128 p (ceilLog2 n) (bytesToNat net.ip) i n hple hdvd
        hbase_lt hi hn_le
      have hiterbound : bytesToNat net.ip +
          i * bytesToNat (ipv6IncrementVector (128 - (p + ceilLog2 n))) < 256 ^ 16 := by
        rw [hivval]
        calc bytesToNat net.ip + i * 2 ^ (128 - (p + ceilLog2 n)) < 2 ^ 128 := by
              have hpos : 1 ≤ (2 : Nat) ^ (128 - (p + ceilLog2 n)) := Nat.one_le_two_pow
              omega
          _ ≤ 256 ^ 16 := by norm_num
      obtain ⟨hival, hilen2, hibytes2⟩ := iterate_addVec_facts net.ip
        (ipv6IncrementVector (128 - (p + ceilLog2 n))) hbase_bytes hbase_len hivlen i
        hiterbound
      have hdvd_addr : 2 ^ (128 - (p + ceilLog2 n)) ∣ bytesToNat
          ((fun x => opAddVec x (ipv6IncrementVector (128 - (p + ceilLog2 n))))^[i] net.ip) := by
        rw [hival, hivval]
        exact dvd_add (dvd_trans (pow_dvd_pow 2 (by omega)) hdvd)
          (Dvd.dvd.mul_left dvd_rfl i)
      show bytesToNat (opAnd
        ((fun x => opAddVec x (ipv6IncrementVector (128 - (p + ceilLog2 n))))^[i] net.ip)
        (setMaskOctets (p + ceilLog2 n))) = _
      rw [opAnd_mask_id _ (p + ceilLog2 n) hibytes2 (by rw [hilen2]; omega)
        (by rw [hilen2]; simpa using hdvd_addr)]
      rw [hival, hivval]
    refine ⟨?_, ?_, ?_, ?_⟩
    · rw [hchildren]
      simp
    · intro c hc
      rw [hchildren] at hc
      obtain ⟨i, _, rfl⟩ := List.mem_map.mp hc
      rfl
    · rw [hchildren, List.map_map]
      exact List.map_congr_left (fun i hi => hchild_val i (List.mem_range.mp hi))
    · have hmapped : net'.subnets.map (fun c => bytesToNat (IPv6Network.ip c)) =
          (List.range n).map
            (fun i => bytesToNat net.ip + i * 2 ^ (128 - (p + ceilLog2 n))) := by
        rw [hchildren, List.map_map]
        exact List.map_congr_left (fun i hi => hchild_val i (List.mem_range.mp hi))
      rw [hmapped, List.pairwise_map]
      refine (List.pairwise_lt_range n).imp ?_
      intro i j hij
      have hstep : (i + 1) * 2 ^ (128 - (p + ceilLog2 n)) ≤
          j * 2 ^ (128 - (p + ceilLog2 n)) := Nat.mul_le_mul_right _ (by omega)
      have hexpand : (i + 1) * 2 ^ (128 - (p + ceilLog2 n)) =
          i * 2 ^ (128 - (p + ceilLog2 n)) + 2 ^ (128 - (p + ceilLog2 n)) := by ring
      omega

/-- Witness for C1: 1.2.3.4/24 segmented into 4 subnets (the spec's own
scenario, children 1.2.3.0/26 … 1.2.3.192/26) and 2001:db8:85a3::/64
segmented into 4 subnets. -/
theorem segment_produces_expected_children_witness :
    segmentIPv4 (.mk [1, 2, 3, 0] 24 [1, 2, 3, 1] [1, 2, 3, 254] [1, 2, 3, 255] []) 4 =
      ((segmentIPv4 (.mk [1, 2, 3, 0] 24 [1, 2, 3, 1] [1, 2, 3, 254] [1, 2, 3, 255] []) 4).1,
        none) ∧
    (segmentIPv4 (.mk [1, 2, 3, 0] 24 [1, 2, 3, 1] [1, 2, 3, 254] [1, 2, 3, 255] [])
      4).1.subnets.length = 4 ∧
    (segmentIPv4 (.mk [1, 2, 3, 0] 24 [1, 2, 3, 1] [1, 2, 3, 254] [1, 2, 3, 255] [])
      4).1.subnets.map (fun c => bytesToNat (IPv4Network.ip c)) =
      (List.range 4).map
        (fun i => bytesToNat (IPv4Network.ip
          (.mk [1, 2, 3, 0] 24 [1, 2, 3, 1] [1, 2, 3, 254] [1, 2, 3, 255] [])) +
          i * 2 ^ (32 - (24 + ceilLog2 4))) ∧
    (segmentIPv6 (.mk [0x20, 0x01, 0x0d, 0xb8, 0x85, 0xa3, 0, 0, 0, 0, 0, 0, 0, 0, 0, 0] 64
      [0x20, 0x01, 0x0d, 0xb8, 0x85, 0xa3, 0, 0, 0, 0, 0, 0, 0, 0, 0, 1]
      [0x20, 0x01, 0x0d, 0xb8, 0x85, 0xa3, 0, 0, 255, 255, 255, 255, 255, 255, 255, 255] []) 4).2
      = none ∧
    (segmentIPv6 (.mk [0x20, 0x01, 0x0d, 0xb8, 0x85, 0xa3, 0, 0, 0, 0, 0, 0, 0, 0, 0, 0] 64
      [0x20, 0x01, 0x0d, 0xb8, 0x85, 0xa3, 0, 0, 0, 0, 0, 0, 0, 0, 0, 1]
      [0x20, 0x01, 0x0d, 0xb8, 0x85, 0xa3, 0, 0, 255, 255, 255, 255, 255, 255, 255, 255] []) 4
      ).1.subnets.length = 4 := by
  have hctor4 : constructIPv4 [1, 2, 3, 4] 24 =
      .ok (.mk [1, 2, 3, 0] 24 [1, 2, 3, 1] [1, 2, 3, 254] [1, 2, 3, 255] []) := rfl
  have h24 : (segmentIPv4 (.mk [1, 2, 3, 0] 24 [1, 2, 3, 1] [1, 2, 3, 254] [1, 2, 3, 255] [])
      4).2 = none := rfl
  have hseg4 : segmentIPv4 (.mk [1, 2, 3, 0] 24 [1, 2, 3, 1] [1, 2, 3, 254] [1, 2, 3, 255] [])
      4 = ((segmentIPv4 (.mk [1, 2, 3, 0] 24 [1, 2, 3, 1] [1, 2, 3, 254] [1, 2, 3, 255] [])
        4).1, none) := by
    rw [← h24]
  have hmain4 := segment_produces_expected_children.1 [1, 2, 3, 4] 24 4 _ _ rfl (by decide)
    hctor4 (by decide) (by decide) hseg4
  have hctor6 : constructIPv6
      [0x20, 0x01, 0x0d, 0xb8, 0x85, 0xa3, 0, 0, 0, 0, 0x8a, 0x2e, 3, 0x70, 0x73, 0x34] 64 =
      .ok (.mk [0x20, 0x01, 0x0d, 0xb8, 0x85, 0xa3, 0, 0, 0, 0, 0, 0, 0, 0, 0, 0] 64
        [0x20, 0x01, 0x0d, 0xb8, 0x85, 0xa3, 0, 0, 0, 0, 0, 0, 0, 0, 0, 1]
        [0x20, 0x01, 0x0d, 0xb8, 0x85, 0xa3, 0, 0, 255, 255, 255, 255, 255, 255, 255, 255]
        []) := rfl
  have h26 : (segmentIPv6 (.mk [0x20, 0x01, 0x0d, 0xb8, 0x85, 0xa3, 0, 0, 0, 0, 0, 0, 0, 0, 0, 0]
      64 [0x20, 0x01, 0x0d, 0xb8, 0x85, 0xa3, 0, 0, 0, 0, 0, 0, 0, 0, 0, 1]
      [0x20, 0x01, 0x0d, 0xb8, 0x85, 0xa3, 0, 0, 255, 255, 255, 255, 255, 255, 255, 255] [])
      4).2 = none := rfl
  have hseg6 : segmentIPv6 (.mk [0x20, 0x01, 0x0d, 0xb8, 0x85, 0xa3, 0, 0, 0, 0, 0, 0, 0, 0, 0, 0]
      64 [0x20, 0x01, 0x0d, 0xb8, 0x85, 0xa3, 0, 0, 0, 0, 0, 0, 0, 0, 0, 1]
      [0x20, 0x01, 0x0d, 0xb8, 0x85, 0xa3, 0, 0, 255, 255, 255, 255, 255, 255, 255, 255] [])
      4 = ((segmentIPv6 (.mk [0x20, 0x01, 0x0d, 0xb8, 0x85, 0xa3, 0, 0, 0, 0, 0, 0, 0, 0, 0, 0]
        64 [0x20, 0x01, 0x0d, 0xb8, 0x85, 0xa3, 0, 0, 0, 0, 0, 0, 0, 0, 0, 1]
        [0x20, 0x01, 0x0d, 0xb8, 0x85, 0xa3, 0, 0, 255, 255, 255, 255, 255, 255, 255, 255] [])
        4).1, none) := by
    rw [← h26]
  have hmain6 := segment_produces_expected_children.2
    [0x20, 0x01, 0x0d, 0xb8, 0x85, 0xa3, 0, 0, 0, 0, 0x8a, 0x2e, 3, 0x70, 0x73, 0x34] 64 4 _ _
    rfl (by decide) hctor6 (by decide) (by decide) hseg6
  exact ⟨hseg4, hmain4.1, hmain4.2.2.1, h26, hmain6.1⟩

/-! ## Parse inversion lemmas -/

theorem parse4Octets_ok : ∀ {os : List (List Char)} {vs : List Nat},
    parse4Octets os = .ok vs →
    vs = os.map digitsToNat ∧
    ∀ o ∈ os, o.isEmpty = false ∧ o.all isDigitChar = true ∧ digitsToNat o ≤ 255 := by
  intro os
  induction os with
  | nil =>
    intro vs h
    simp only [parse4Octets, Except.ok.injEq] at h
    subst h
    exact ⟨rfl, by simp⟩
  | cons o rest ih =>
    intro vs h
    simp only [parse4Octets] at h
    split at h
    · exact absurd h (by simp)
    · next hcond =>
      split at h
      · exact absurd h (by simp)
      · split at h
        · exact absurd h (by simp)
        · next hmax h255 =>
          cases hrest : parse4Octets rest with
          | error e => rw [hrest] at h; exact absurd h (by simp [Bind.bind, Except.bind])
          | ok vs' =>
            rw [hrest] at h
            simp only [Bind.bind, Except.bind, pure, Except.pure, Except.ok.injEq] at h
            obtain ⟨hmap, hall⟩ := ih hrest
            constructor
            · rw [← h, hmap]
              rfl
            · intro x hx
              rcases List.mem_cons.mp hx with rfl | hx
              · refine ⟨?_, ?_, by omega⟩
                · by_contra hc
                  simp at hc
                  exact hcond (by simp [hc])
                · by_contra hc
                  exact hcond (by simp [hc])
              · exact hall x hx

theorem parse4_ok_shape {t : List Char} {a : List Nat} (h : parse4 t = .ok a) :
    a.length = 4 ∧ allBytes a := by
  simp only [parse4] at h
  split at h
  · exact absurd h (by simp)
  · next hlen =>
    obtain ⟨hmap, hall⟩ := parse4Octets_ok h
    constructor
    · rw [hmap, List.length_map]
      omega
    · intro b hb
      rw [hmap] at hb
      obtain ⟨o, ho, rfl⟩ := List.mem_map.mp hb
      have := (hall o ho).2.2
      omega

theorem parse6Hextets_ok : ∀ {hs : List (List Char)} {vs : List Nat},
    parse6Hextets hs = .ok vs → vs.length = 2 * hs.length ∧ allBytes vs := by
  intro hs
  induction hs with
  | nil =>
    intro vs h
    simp only [parse6Hextets, Except.ok.injEq] at h
    subst h
    exact ⟨rfl, by simp [allBytes]⟩
  | cons x rest ih =>
    intro vs h
    simp only [parse6Hextets] at h
    split at h
    · exact absurd h (by simp)
    · split at h
      · exact absurd h (by simp)
      · split at h
        · exact absurd h (by simp)
        · next hmax h16 =>
          cases hrest : parse6Hextets rest with
          | error e => rw [hrest] at h; exact absurd h (by simp [Bind.bind, Except.bind])
          | ok vs' =>
            rw [hrest] at h
            simp only [Bind.bind, Except.bind, pure, Except.pure, Except.ok.injEq] at h
            obtain ⟨hlen, hall⟩ := ih hrest
            constructor
            · rw [← h]
              simp only [List.length_cons, hlen, List.length_cons]
              ring
            · intro b hb
              rw [← h] at hb
              simp only [List.mem_cons] at hb
              rcases hb with rfl | hb
              · have : hexToNat x ≤ 65535 := by omega
                omega
              · rcases hb with rfl | hb
                · exact Nat.mod_lt _ (by norm_num)
                · exact hall b hb

theorem parse6Check_ok {hs : List (List Char)} {a : List Nat}
    (h : parse6Check hs = .ok a) : a.length = 16 ∧ allBytes a := by
  unfold parse6Check at h
  split at h
  · exact absurd h (by simp)
  · next hlen =>
    obtain ⟨hl, hb⟩ := parse6Hextets_ok h
    refine ⟨?_, hb⟩
    omega

theorem parse6_ok_shape {t : List Char} {a : List Nat} (h : parse6 t = .ok a) :
    a.length = 16 ∧ allBytes a := by
  simp only [parse6] at h
  split at h
  · repeat' split at h
    all_goals try exact parse6Check_ok h
    all_goals exact absurd h (by simp)
  · exact parse6Check_ok h

/-! ## Splitting lemmas -/

theorem findSub_single_none {c : Char} : ∀ {s : List Char}, c ∉ s → findSub [c] s = none := by
  intro s
  induction s with
  | nil => intro _; rfl
  | cons x s' ih =>
    intro h
    have hx : c ≠ x := by
      intro hcon
      exact h (by simp [hcon])
    unfold findSub
    rw [if_neg (by simp [List.isPrefixOf, hx])]
    rw [ih (fun hm => h (by simp [hm]))]
    rfl

theorem findSub_single_some {c : Char} : ∀ {p : List Char}, c ∉ p → ∀ rest : List Char,
    findSub [c] (p ++ c :: rest) = some p.length := by
  intro p
  induction p with
  | nil =>
    intro _ rest
    show findSub [c] (c :: rest) = some 0
    unfold findSub
    rw [if_pos (by simp [List.isPrefixOf])]
  | cons x p' ih =>
    intro h rest
    have hx : c ≠ x := by
      intro hcon
      exact h (by simp [hcon])
    show findSub [c] (x :: (p' ++ c :: rest)) = _
    unfold findSub
    rw [if_neg (by simp [List.isPrefixOf, hx])]
    rw [ih (fun hm => h (by simp [hm])) rest]
    rfl

theorem splitListAux_congr {d : List Char} (hd : d ≠ []) :
    ∀ f1 : Nat, ∀ {f2 : Nat} {s : List Char}, s.length < f1 → s.length < f2 →
      splitListAux d f1 s = splitListAux d f2 s := by
  intro f1
  induction f1 with
  | zero => intro f2 s h1 _; omega
  | succ f1 ih =>
    intro f2 s h1 h2
    cases f2 with
    | zero => omega
    | succ f2 =>
      show splitListAux d (f1 + 1) s = splitListAux d (f2 + 1) s
      unfold splitListAux
      cases hfind : findSub d s with
      | none => rfl
      | some i =>
        have hle := findSub_le hfind
        have hdlen : 1 ≤ d.length := by
          cases d with
          | nil => exact absurd rfl hd
          | cons _ _ => simp
        show s.take i :: splitListAux d f1 (s.drop (i + d.length)) =
          s.take i :: splitListAux d f2 (s.drop (i + d.length))
        congr 1
        apply ih
        · simp only [List.length_drop]; omega
        · simp only [List.length_drop]; omega

theorem splitList_of_none {d s : List Char} (hd : d ≠ []) (h : findSub d s = none) :
    splitList s d = [s] := by
  unfold splitList
  rw [if_neg hd]
  show splitListAux d (s.length + 1) s = [s]
  unfold splitListAux
  rw [h]

theorem splitList_step_of_findSub {d : List Char} (hd : d ≠ []) {x tail : List Char}
    (h : findSub d (x ++ d ++ tail) = some x.length) :
    splitList (x ++ d ++ tail) d = x :: splitList tail d := by
  have hdlen : 1 ≤ d.length := by
    cases d with
    | nil => exact absurd rfl hd
    | cons _ _ => simp
  have htake : (x ++ d ++ tail).take x.length = x := by
    rw [List.append_assoc]
    exact List.take_left x (d ++ tail)
  have hdrop : (x ++ d ++ tail).drop (x.length + d.length) = tail := by
    have hxd : x.length + d.length = (x ++ d).length := by simp
    rw [hxd]
    exact List.drop_left (x ++ d) tail
  have hfl : tail.length < (x ++ d ++ tail).length := by
    simp only [List.length_append]
    omega
  unfold splitList
  rw [if_neg hd, if_neg hd]
  show splitListAux d ((x ++ d ++ tail).length + 1) (x ++ d ++ tail) = _
  simp only [splitListAux, h, htake, hdrop]
  rw [splitListAux_congr hd _ hfl (Nat.lt_succ_self _)]
  simp only [splitListAux]

theorem findSub_pair_none {c : Char} : ∀ {s : List Char}, c ∉ s → findSub [c, c] s = none := by
  intro s
  induction s with
  | nil => intro _; rfl
  | cons x s' ih =>
    intro h
    have hx : c ≠ x := fun hcon => h (by simp [hcon])
    unfold findSub
    rw [if_neg (by simp [List.isPrefixOf, hx])]
    rw [ih (fun hm => h (by simp [hm]))]
    rfl

theorem findSub_pair_some {c : Char} : ∀ {p : List Char}, c ∉ p → ∀ rest : List Char,
    findSub [c, c] (p ++ c :: c :: rest) = some p.length := by
  intro p
  induction p with
  | nil =>
    intro _ rest
    show findSub [c, c] (c :: c :: rest) = some 0
    unfold findSub
    rw [if_pos (by simp [List.isPrefixOf])]
  | cons x p' ih =>
    intro h rest
    have hx : c ≠ x := fun hcon => h (by simp [hcon])
    show findSub [c, c] (x :: (p' ++ c :: c :: rest)) = _
    unfold findSub
    rw [if_neg (by simp [List.isPrefixOf, hx])]
    rw [ih (fun hm => h (by simp [hm])) rest]
    rfl

theorem splitList_single_of_not_mem {c : Char} {s : List Char} (h : c ∉ s) :
    splitList s [c] = [s] :=
  splitList_of_none (by simp) (findSub_single_none h)

theorem splitList_single_step {c : Char} {x tail : List Char} (hx : c ∉ x) :
    splitList (x ++ c :: tail) [c] = x :: splitList tail [c] := by
  have h := @splitList_step_of_findSub [c] (by simp) x tail
    (by simpa using findSub_single_some hx tail)
  simpa using h

theorem splitList_pair_of_not_mem {c : Char} {s : List Char} (h : c ∉ s) :
    splitList s [c, c] = [s] :=
  splitList_of_none (by simp) (findSub_pair_none h)

theorem splitList_pair_step {c : Char} {x tail : List Char} (hx : c ∉ x) :
    splitList (x ++ c :: c :: tail) [c, c] = x :: splitList tail [c, c] := by
  have h := @splitList_step_of_findSub [c, c] (by simp) x tail
    (by simpa using findSub_pair_some hx tail)
  simpa using h

theorem findSub_append_none {d : List Char} (hd : d ≠ []) :
    ∀ {s s' : List Char}, findSub d (s ++ s') = none → findSub d s = none := by
  intro s
  induction s with
  | nil =>
    intro s' _
    unfold findSub
    rw [if_neg]
    cases d with
    | nil => exact absurd rfl hd
    | cons e es => simp [List.isPrefixOf]
  | cons x s'' ih =>
    intro s' h
    have h' : findSub d (x :: (s'' ++ s')) = none := h
    unfold findSub at h'
    split at h'
    · exact absurd h' (by simp)
    · next hcond =>
      have hrec : findSub d (s'' ++ s') = none := by
        cases hfs : findSub d (s'' ++ s') with
        | none => rfl
        | some v => rw [hfs] at h'; exact absurd h' (by simp)
      have hcond2 : ¬ d.isPrefixOf (x :: s'') = true := by
        intro hg
        apply hcond
        rw [List.isPrefixOf_iff_prefix] at hg ⊢
        exact hg.trans (List.prefix_append _ _)
      unfold findSub
      rw [if_neg hcond2, ih hrec]
      rfl

theorem findSub_pair_some_general {c : Char} : ∀ {p : List Char},
    findSub [c, c] (p ++ [c]) = none → ∀ rest : List Char,
    findSub [c, c] (p ++ c :: c :: rest) = some p.length := by
  intro p
  induction p with
  | nil =>
    intro _ rest
    show findSub [c, c] (c :: c :: rest) = some 0
    unfold findSub
    rw [if_pos (by simp [List.isPrefixOf])]
  | cons x p' ih =>
    intro h rest
    have h' : findSub [c, c] (x :: (p' ++ [c])) = none := h
    unfold findSub at h'
    split at h'
    · exact absurd h' (by simp)
    · next hcond =>
      have hrec : findSub [c, c] (p' ++ [c]) = none := by
        cases hfs : findSub [c, c] (p' ++ [c]) with
        | none => rfl
        | some v => rw [hfs] at h'; exact absurd h' (by simp)
      have hcond2 : ¬ [c, c].isPrefixOf (x :: (p' ++ c :: c :: rest)) = true := by
        intro hg
        apply hcond
        cases p' with
        | nil =>
          simp [List.isPrefixOf] at hg ⊢
          tauto
        | cons y p'' =>
          simp [List.isPrefixOf] at hg ⊢
          tauto
      show findSub [c, c] (x :: (p' ++ c :: c :: rest)) = some (x :: p').length
      unfold findSub
      rw [if_neg hcond2, ih hrec rest]
      rfl

theorem splitList_pair_step_general {c : Char} {x tail : List Char}
    (hx : findSub [c, c] (x ++ [c]) = none) :
    splitList (x ++ c :: c :: tail) [c, c] = x :: splitList tail [c, c] := by
  have h := @splitList_step_of_findSub [c, c] (by simp) x tail
    (by simpa using findSub_pair_some_general hx tail)
  simpa using h

theorem splitList_joinSep {c : Char} : ∀ parts : List (List Char), parts ≠ [] →
    (∀ p ∈ parts, c ∉ p) → splitList (joinSep c parts) [c] = parts := by
  intro parts
  induction parts with
  | nil => intro h _; exact absurd rfl h
  | cons x rest ih =>
    intro _ h
    cases rest with
    | nil =>
      show splitList x [c] = [x]
      exact splitList_single_of_not_mem (h x (by simp))
    | cons y rest' =>
      show splitList (x ++ c :: joinSep c (y :: rest')) [c] = x :: y :: rest'
      rw [splitList_single_step (h x (by simp))]
      rw [ih (by simp) (fun p hp => h p (by simp [hp]))]

set_option maxRecDepth 8000 in
theorem decRepr_facts : ∀ v : Nat, v < 256 →
    (decRepr v).isEmpty = false ∧ (decRepr v).all isDigitChar = true ∧
    ('.' ∈ decRepr v) = False ∧ digitsToNat (decRepr v) = v := by decide

theorem parse4Octets_map_decRepr : ∀ a : List Nat, allBytes a →
    parse4Octets (a.map decRepr) = .ok a := by
  intro a
  induction a with
  | nil => intro _; rfl
  | cons v rest ih =>
    intro h
    have hv : v < 256 := h v (by simp)
    obtain ⟨hne, hdig, _, hval⟩ := decRepr_facts v hv
    show parse4Octets (decRepr v :: rest.map decRepr) = _
    unfold parse4Octets
    rw [if_neg (by simp [hne, hdig])]
    rw [hval]
    rw [if_neg (by omega), if_neg (by omega)]
    rw [ih (fun b hb => h b (by simp [hb]))]
    rfl

/-! ## Claim theorems -/

/-- C2: for every successfully parsed address and every prefix length in
[1, 31], the network constructor derives `base = address AND mask`,
`firstUsable = base + 1` and `lastUsable = base OR complement(mask)`; the
IPv4 variant additionally stores `broadcast = base OR complement(mask)`
(the all-host-bits-set address) and decrements `lastUsable`, so
`broadcast = lastUsable + 1`. -/
theorem network_constructor_invariants :
    (∀ (t : List Char) (a : List Nat) (p : Nat) (net : IPv4Network),
      parse4 t = .ok a → 1 ≤ p → p ≤ 31 → constructIPv4 a p = .ok net →
        net.ip = opAnd a (setMaskOctets p) ∧
        bytesToNat net.firstIp = bytesToNat net.ip + 1 ∧
        net.broadcastIp = opOr net.ip (maskComplement (setMaskOctets p)) ∧
        bytesToNat net.broadcastIp = bytesToNat net.ip + 2 ^ (32 - p) - 1 ∧
        bytesToNat net.broadcastIp = bytesToNat net.lastIp + 1) ∧
    (∀ (t : List Char) (a : List Nat) (p : Nat) (net : IPv6Network),
      parse6 t = .ok a → 1 ≤ p → p ≤ 31 → constructIPv6 a p = .ok net →
        net.ip = opAnd a (setMaskOctets p) ∧
        bytesToNat net.firstIp = bytesToNat net.ip + 1 ∧
        net.lastIp = opOr net.ip (maskComplement (setMaskOctets p)) ∧
        bytesToNat net.lastIp = bytesToNat net.ip + 2 ^ (128 - p) - 1) := by
  constructor
  · intro t a p net hparse hp1 hp31 hctor
    obtain ⟨hlen, hbytes⟩ := parse4_ok_shape hparse
    rw [constructIPv4_eq a p hp1 (by omega)] at hctor
    simp only [Except.ok.injEq] at hctor
    subst hctor
    obtain ⟨hinc, hor, hdec⟩ := construct_core_facts a p 4 hlen hbytes hp1 (by omega)
    have hor' : bytesToNat (opOr (opAnd a (setMaskOctets p)) (maskComplement (setMaskOctets p))) =
        bytesToNat (opAnd a (setMaskOctets p)) + 2 ^ (32 - p) - 1 := by
      simpa using hor
    have hdec' : bytesToNat
        (opDec (opOr (opAnd a (setMaskOctets p)) (maskComplement (setMaskOctets p)))) =
        bytesToNat (opAnd a (setMaskOctets p)) + 2 ^ (32 - p) - 1 - 1 := by
      simpa using hdec
    have hpow : 2 ≤ 2 ^ (32 - p) :=
      le_trans (by norm_num) (Nat.pow_le_pow_right (by norm_num) (by omega : 1 ≤ 32 - p))
    refine ⟨rfl, hinc, rfl, hor', ?_⟩
    show bytesToNat (opOr (opAnd a (setMaskOctets p)) (maskComplement (setMaskOctets p))) =
      bytesToNat (opDec (opOr (opAnd a (setMaskOctets p)) (maskComplement (setMaskOctets p)))) + 1
    rw [hor', hdec']
    omega
  · intro t a p net hparse hp1 hp31 hctor
    obtain ⟨hlen, hbytes⟩ := parse6_ok_shape hparse
    rw [constructIPv6_eq a p hp1 (by omega)] at hctor
    simp only [Except.ok.injEq] at hctor
    subst hctor
    obtain ⟨hinc, hor, _⟩ := construct_core_facts a p 16 hlen hbytes hp1 (by omega)
    have hor' : bytesToNat (opOr (opAnd a (setMaskOctets p)) (maskComplement (setMaskOctets p))) =
        bytesToNat (opAnd a (setMaskOctets p)) + 2 ^ (128 - p) - 1 := by
      simpa using hor
    exact ⟨rfl, hinc, rfl, hor'⟩

/-- Witness for C2: address 1.2.3.4 with prefix 24 on the IPv4 side, the
doc-test IPv6 address with prefix 24 on the IPv6 side. -/
theorem network_constructor_invariants_witness :
    (∃ net, constructIPv4 [1, 2, 3, 4] 24 = .ok net ∧
      net.ip = opAnd [1, 2, 3, 4] (setMaskOctets 24) ∧
      bytesToNat net.firstIp = bytesToNat net.ip + 1 ∧
      bytesToNat net.broadcastIp = bytesToNat net.lastIp + 1) ∧
    (∃ net, constructIPv6
        [0x20, 0x01, 0x0d, 0xb8, 0x85, 0xa3, 0, 0, 0, 0, 0x8a, 0x2e, 3, 0x70, 0x73, 0x34]
        24 = .ok net ∧
      net.ip = opAnd
        [0x20, 0x01, 0x0d, 0xb8, 0x85, 0xa3, 0, 0, 0, 0, 0x8a, 0x2e, 3, 0x70, 0x73, 0x34]
        (setMaskOctets 24) ∧
      bytesToNat net.firstIp = bytesToNat net.ip + 1) := by
  constructor
  · obtain ⟨net, hnet⟩ : ∃ net, constructIPv4 [1, 2, 3, 4] 24 = .ok net :=
      ⟨_, constructIPv4_eq [1, 2, 3, 4] 24 (by decide) (by decide)⟩
    have hmain := network_constructor_invariants.1
      ['1', '.', '2', '.', '3', '.', '4'] [1, 2, 3, 4] 24 net rfl (by decide) (by decide) hnet
    exact ⟨net, hnet, hmain.1, hmain.2.1, hmain.2.2.2.2⟩
  · obtain ⟨net, hnet⟩ : ∃ net, constructIPv6
        [0x20, 0x01, 0x0d, 0xb8, 0x85, 0xa3, 0, 0, 0, 0, 0x8a, 0x2e, 3, 0x70, 0x73, 0x34]
        24 = .ok net :=
      ⟨_, constructIPv6_eq _ 24 (by decide) (by decide)⟩
    have hmain := network_constructor_invariants.2
      ['2', '0', '0', '1', ':', 'd', 'b', '8', ':', '8', '5', 'a', '3', ':', ':', '8', 'a',
        '2', 'e', ':', '3', '7', '0', ':', '7', '3', '3', '4']
      [0x20, 0x01, 0x0d, 0xb8, 0x85, 0xa3, 0, 0, 0, 0, 0x8a, 0x2e, 3, 0x70, 0x73, 0x34]
      24 net rfl (by decide) (by decide) hnet
    exact ⟨net, hnet, hmain.1, hmain.2.1⟩

/-- C3: the claim states that `operator++`/`operator--` compute value ± 1
modulo `2^(8·length)` with a byte at the extreme wrapping to the opposite
extreme and the carry/borrow continuing.  The code instead leaves extreme
bytes unchanged and adjusts the first non-extreme byte: incrementing
0.0.0.255 yields 0.0.1.255 (value 511) instead of 0.0.1.0 (value 256),
and decrementing 0.0.1.0 yields 0.0.0.0 (value 0) instead of 0.0.0.255
(value 255). -/
theorem opInc_opDec_skip_extreme_eval :
    opInc [0, 0, 0, 255] = [0, 0, 1, 255] ∧
    bytesToNat (opInc [0, 0, 0, 255]) = 511 ∧
    (bytesToNat [0, 0, 0, 255] + 1) % 2 ^ 32 = 256 ∧
    opDec [0, 0, 1, 0] = [0, 0, 0, 0] ∧
    bytesToNat (opDec [0, 0, 1, 0]) = 0 ∧
    (bytesToNat [0, 0, 1, 0] + 2 ^ 32 - 1) % 2 ^ 32 = 255 := by decide

/-- C4: `calculateCapacity(p)` returns `2^(32-p)` for `1 ≤ p < 32` and
exactly 65536 for `p ≥ 32`.  The function is defined once in
`ip_address.h` (modelled by the single `calculateCapacity`) and both
`segmentIPv4` and `segmentIPv6` call that same definition. -/
theorem calculateCapacity_formula (p : Nat) :
    (1 ≤ p → p < 32 → calculateCapacity p = 2 ^ (32 - p)) ∧
    (32 ≤ p → calculateCapacity p = 65536) := by
  constructor
  · intro _ h2
    unfold calculateCapacity
    rw [if_neg (by omega), Nat.shiftLeft_eq, one_mul]
  · intro h
    unfold calculateCapacity
    rw [if_pos h]

/-- Witness for C4 at `p = 24` and `p = 33`. -/
theorem calculateCapacity_formula_witness :
    calculateCapacity 24 = 2 ^ 8 ∧ calculateCapacity 33 = 65536 :=
  ⟨(calculateCapacity_formula 24).1 (by decide) (by decide),
   (calculateCapacity_formula 33).2 (by decide)⟩

/-- C5: the claim states the compressed zero run renders as exactly two
colons.  For `::1` — hextets `0:0:0:0:0:0:0:1`, longest zero run starting
at group 0 — the code prints `":1"`, a single colon: the first colon of
the pair normally comes from the separator after the group preceding the
run, and no such group exists when the run starts at index 0. -/
theorem print6_leading_zero_run_eval :
    print6 [0, 0, 0, 0, 0, 0, 0, 0, 0, 0, 0, 0, 0, 0, 0, 1] = [':', '1'] ∧
    (print6 [0, 0, 0, 0, 0, 0, 0, 0, 0, 0, 0, 0, 0, 0, 0, 1]).count ':' = 1 := by decide

/-- C7: the claim states `operator-=` computes value − d modulo
`2^(8·length)` with the borrow propagating across byte boundaries.  C++
truncating division makes `difference / 256` equal 0 for differences in
[-255, -1], so a needed borrow is dropped: 0.0.1.0 -= 1 yields 0.0.1.255
(value 511) instead of 0.0.0.255 (value 255). -/
theorem opSubInt_borrow_dropped_eval :
    opSubInt [0, 0, 1, 0] 1 = [0, 0, 1, 255] ∧
    bytesToNat (opSubInt [0, 0, 1, 0] 1) = 511 ∧
    (bytesToNat [0, 0, 1, 0] + 2 ^ 32 - 1) % 2 ^ 32 = 255 := by decide

/-- C9 counterexample: the claim states the byte length never changes
under any defined arithmetic operation, including add-byte-sequence.
Adding the 16-byte increment vector with value 1 to the all-ones 16-byte
address makes `IPv6Address::operator+=` insert a new most significant
byte: the result has 17 bytes. -/
theorem opAddVec_grows_length :
    (List.replicate 16 (255 : Nat)).length = 16 ∧
    allBytes (List.replicate 16 (255 : Nat)) ∧
    (ipv6IncrementVector 0).length = 16 ∧
    (opAddVec (List.replicate 16 255) (ipv6IncrementVector 0)).length = 17 := by decide

/-- C9 amended: increment, decrement, add-integer, subtract-integer,
mask AND and mask OR preserve the byte length unconditionally;
add-byte-sequence preserves it only when the sum still fits the
original width (otherwise the address grows by carry insertion). -/
theorem arithmetic_ops_preserve_length :
    (∀ a : List Nat, (opInc a).length = a.length) ∧
    (∀ a : List Nat, (opDec a).length = a.length) ∧
    (∀ (a : List Nat) (k : Int), (opAddInt a k).length = a.length) ∧
    (∀ (a : List Nat) (k : Int), (opSubInt a k).length = a.length) ∧
    (∀ a m : List Nat, (opAnd a m).length = a.length) ∧
    (∀ a m : List Nat, (opOr a m).length = a.length) ∧
    (∀ a inc : List Nat, inc.length ≤ a.length →
      bytesToNat a + bytesToNat inc < 256 ^ a.length →
      (opAddVec a inc).length = a.length) :=
  ⟨opInc_length, opDec_length, opAddInt_length, opSubInt_length, opAnd_length, opOr_length,
   fun a inc h1 h2 => opAddVec_length a inc h1 h2⟩

/-- Witness for the amended C9 at concrete inputs. -/
theorem arithmetic_ops_preserve_length_witness :
    (opInc [1, 2, 3, 4]).length = [1, 2, 3, 4].length ∧
    (ipv6IncrementVector 0).length ≤ (List.replicate 16 (1 : Nat)).length ∧
    bytesToNat (List.replicate 16 (1 : Nat)) + bytesToNat (ipv6IncrementVector 0) <
      256 ^ (List.replicate 16 (1 : Nat)).length ∧
    (opAddVec (List.replicate 16 1) (ipv6IncrementVector 0)).length =
      (List.replicate 16 (1 : Nat)).length :=
  ⟨arithmetic_ops_preserve_length.1 [1, 2, 3, 4], by decide, by decide,
   arithmetic_ops_preserve_length.2.2.2.2.2.2 _ _ (by decide) (by decide)⟩

/-- C10: when `segment(n)` fails (n = 0, n above the capacity of the
current prefix length, or the new prefix length above the family
maximum), the network — children list included — is returned untouched;
all three throws precede `_subnets.clear()` and every other mutation. -/
theorem segment_failure_leaves_state :
    (∀ (net : IPv4Network) (n : Nat), 1 ≤ net.prefixLength →
      (segmentIPv4 net n).2.isSome = true → (segmentIPv4 net n).1 = net) ∧
    (∀ (net : IPv6Network) (n : Nat), 1 ≤ net.prefixLength →
      (segmentIPv6 net n).2.isSome = true → (segmentIPv6 net n).1 = net) := by
  constructor
  · intro net n hp hfail
    by_cases h1 : n < 1
    · simp only [segmentIPv4]
      rw [if_pos h1]
    · by_cases h2 : n > calculateCapacity net.prefixLength
      · simp only [segmentIPv4]
        rw [if_neg h1, if_pos h2]
      · by_cases h3 : net.prefixLength + ceilLog2 n > 32
        · simp only [segmentIPv4]
          rw [if_neg h1, if_neg h2, if_pos h3]
        · exfalso
          have heq := segmentIPv4_ok net n (by omega) (by omega) hp (by omega)
          rw [heq] at hfail
          simp at hfail
  · intro net n hp hfail
    by_cases h1 : n < 1
    · simp only [segmentIPv6]
      rw [if_pos h1]
    · by_cases h2 : n > calculateCapacity net.prefixLength
      · simp only [segmentIPv6]
        rw [if_neg h1, if_pos h2]
      · by_cases h3 : net.prefixLength + ceilLog2 n > 128
        · simp only [segmentIPv6]
          rw [if_neg h1, if_neg h2, if_pos h3]
        · exfalso
          have heq := segmentIPv6_ok net n (by omega) (by omega) hp (by omega)
          rw [heq] at hfail
          simp at hfail

/-- Witness for C10: segmenting 1.2.3.0/24 into 0 subnets fails and
leaves the network (with a previously computed child) unchanged. -/
theorem segment_failure_leaves_state_witness :
    1 ≤ (IPv4Network.mk [1, 2, 3, 0] 24 [1, 2, 3, 1] [1, 2, 3, 254] [1, 2, 3, 255]
      [IPv4Network.mk [1, 2, 3, 0] 25 [1, 2, 3, 1] [1, 2, 3, 126] [1, 2, 3, 127] []]).prefixLength ∧
    (segmentIPv4 (IPv4Network.mk [1, 2, 3, 0] 24 [1, 2, 3, 1] [1, 2, 3, 254] [1, 2, 3, 255]
      [IPv4Network.mk [1, 2, 3, 0] 25 [1, 2, 3, 1] [1, 2, 3, 126] [1, 2, 3, 127] []]) 0).2.isSome = true ∧
    (segmentIPv4 (IPv4Network.mk [1, 2, 3, 0] 24 [1, 2, 3, 1] [1, 2, 3, 254] [1, 2, 3, 255]
      [IPv4Network.mk [1, 2, 3, 0] 25 [1, 2, 3, 1] [1, 2, 3, 126] [1, 2, 3, 127] []]) 0).1 =
      IPv4Network.mk [1, 2, 3, 0] 24 [1, 2, 3, 1] [1, 2, 3, 254] [1, 2, 3, 255]
        [IPv4Network.mk [1, 2, 3, 0] 25 [1, 2, 3, 1] [1, 2, 3, 126] [1, 2, 3, 127] []] :=
  ⟨by decide, rfl, segment_failure_leaves_state.1 _ 0 (by decide) rfl⟩

/-- C8: every textual IPv4 address that parses successfully re-parses from
its rendering to the same four octet values, so the rendering is
canonical (the four numeric components joined with `.`, leading zeros
removed) and `render(parse(text)) = render(parse(render(parse(text))))`. -/
theorem render_parse_roundtrip (t : List Char) (a : List Nat)
    (h : parse4 t = .ok a) :
    parse4 (render4 a) = .ok a ∧
    (parse4 (render4 a)).map render4 = (parse4 t).map render4 := by
  obtain ⟨hlen, hbytes⟩ := parse4_ok_shape h
  have hsplit : splitList (render4 a) ['.'] = a.map decRepr := by
    apply splitList_joinSep
    · intro hnil
      rw [List.map_eq_nil_iff] at hnil
      rw [hnil] at hlen
      simp at hlen
    · intro p hp
      obtain ⟨v, hv, rfl⟩ := List.mem_map.mp hp
      have hdot := (decRepr_facts v (hbytes v hv)).2.2.1
      intro hmem
      exact hdot ▸ hmem
  have hparse : parse4 (render4 a) = .ok a := by
    simp only [parse4, hsplit]
    rw [if_neg (by simp [hlen])]
    exact parse4Octets_map_decRepr a hbytes
  refine ⟨hparse, ?_⟩
  rw [hparse, h]

/-- Witness for C8: `1.02.3.4` parses to octets 1, 2, 3, 4; re-parsing the
canonical rendering `1.2.3.4` returns the same octets, and the two
renderings agree. -/
theorem render_parse_roundtrip_witness :
    parse4 ['1', '.', '0', '2', '.', '3', '.', '4'] = Except.ok [1, 2, 3, 4] ∧
    (parse4 (render4 [1, 2, 3, 4]) = Except.ok [1, 2, 3, 4] ∧
      (parse4 (render4 [1, 2, 3, 4])).map render4 =
        (parse4 ['1', '.', '0', '2', '.', '3', '.', '4']).map render4) :=
  ⟨by rfl, render_parse_roundtrip ['1', '.', '0', '2', '.', '3', '.', '4'] [1, 2, 3, 4] (by rfl)⟩

/-- C6 counterexample: the text `1::2::3` holds two `::` tokens, yet
`setAddress` accepts it and stores the address `1::2` (group 0 is 1,
group 15 low byte is 2); the claimed invalid-format failure does not
occur. -/
theorem parse6_two_compressions_accepted :
    parse6 ['1', ':', ':', '2', ':', ':', '3'] =
      Except.ok [0, 1, 0, 0, 0, 0, 0, 0, 0, 0, 0, 0, 0, 0, 0, 2] := by rfl

/-- C6 (amended): a second `::` never makes parsing fail by itself: only
the text before the first `::` and the text between the first and the
second `::` are consulted, so everything from the second `::` on is
ignored and the result equals parsing the input truncated just before
its second `::`.  The hypotheses say only that `::` does not occur in
`l` or `r`, not even when a further `:` follows (so `l` and `r` may
themselves hold `:`-separated groups); decomposing any input at its
first two `::` occurrences satisfies them, since text before the first
occurrence of `::` can neither contain `::` nor end in `:`, and
likewise for the text between the first two occurrences.  Hence every
input containing more than one `::` is covered. -/
theorem parse6_extra_compression_ignored (l r t : List Char)
    (hl : findSub [':', ':'] (l ++ [':']) = none)
    (hr : findSub [':', ':'] (r ++ [':']) = none) :
    parse6 (l ++ ':' :: ':' :: (r ++ ':' :: ':' :: t)) =
      parse6 (l ++ ':' :: ':' :: r) := by
  have hf1 : findSub [':', ':'] (l ++ ':' :: ':' :: (r ++ ':' :: ':' :: t)) = some l.length :=
    findSub_pair_some_general hl _
  have hf2 : findSub [':', ':'] (l ++ ':' :: ':' :: r) = some l.length :=
    findSub_pair_some_general hl r
  have hrn : findSub [':', ':'] r = none := findSub_append_none (by simp) hr
  have h1 : splitList (l ++ ':' :: ':' :: (r ++ ':' :: ':' :: t)) [':', ':'] =
      l :: r :: splitList t [':', ':'] := by
    rw [splitList_pair_step_general hl, splitList_pair_step_general hr]
  have h2 : splitList (l ++ ':' :: ':' :: r) [':', ':'] = [l, r] := by
    rw [splitList_pair_step_general hl, splitList_of_none (by simp) hrn]
  simp only [parse6, hf1, hf2, h1, h2]
  simp [List.getD]

/-- Witness for C6: with multi-group sides, `1:2::3:4::5` parses exactly
as `1:2::3:4` does. -/
theorem parse6_extra_compression_ignored_witness :
    parse6 ['1', ':', '2', ':', ':', '3', ':', '4', ':', ':', '5'] =
      parse6 ['1', ':', '2', ':', ':', '3', ':', '4'] :=
  parse6_extra_compression_ignored ['1', ':', '2'] ['3', ':', '4'] ['5'] (by rfl) (by rfl)

end NetSeg
